import Mathlib

/-!
Verification of the AppHolly manifest build-and-cache pipeline.

The Python sources under `app/` are shallowly embedded here: text is
modelled as `List Char`, file systems as functions `String → Option (List Nat)`,
and the external SHA-256 call (`hashlib.sha256(...).hexdigest()`) is abstracted
as an explicit function parameter `hash : List Char → List Char`, since the
hash implementation lives in the Python standard library and not in this
repository.  All definitions follow the source line by line; the theorems at
the end of the file settle the specification claims.
-/

set_option maxRecDepth 4000

/-- `String.data` of a string literal, used to write character-list constants. -/
def strL (s : String) : List Char := s.data

/-- The whitespace characters stripped by Python's `str.strip()` (ASCII part). -/
def pyWS (c : Char) : Bool :=
  c == ' ' || c == '\t' || c == '\n' || c == '\r' || c == '\x0b' || c == '\x0c'

/-- Horizontal whitespace, the character class `[ \t]` used by the sources. -/
def isHoriz (c : Char) : Bool := c == ' ' || c == '\t'

/-- Lower-casing for the characters that occur in the marker phrases
(`str.lower()` restricted to ASCII plus the accented letters used). -/
def lowerChar (c : Char) : Char :=
  if c = 'Á' then 'á' else if c = 'É' then 'é' else if c = 'Í' then 'í'
  else if c = 'Ó' then 'ó' else if c = 'Ú' then 'ú' else if c = 'Ñ' then 'ñ'
  else c.toLower

/-- `str.lower()` on a character list. -/
def lowerL (l : List Char) : List Char := l.map lowerChar

/-- Worker for `re.sub(r"[ \t]+", " ", s)`: `insideRun` records whether the
previous character belonged to a horizontal-whitespace run. -/
def collapseHorizAux (insideRun : Bool) : List Char → List Char
  | [] => []
  | c :: rest =>
    if isHoriz c then
      if insideRun then collapseHorizAux true rest
      else ' ' :: collapseHorizAux true rest
    else c :: collapseHorizAux false rest

/-- `re.sub(r"[ \t]+", " ", s)`. -/
def collapseHoriz (l : List Char) : List Char := collapseHorizAux false l

/-- Worker for `re.sub(r"\n{3,}", "\n\n", s)`: `run` counts the newlines
already emitted in the current newline run; further newlines of a run are
dropped once two have been kept, which is exactly the effect of replacing
every maximal run of three or more newlines by two. -/
def squeezeNLAux (run : Nat) : List Char → List Char
  | [] => []
  | c :: rest =>
    if c = '\n' then
      if 2 ≤ run then squeezeNLAux run rest
      else '\n' :: squeezeNLAux (run + 1) rest
    else c :: squeezeNLAux 0 rest

/-- `re.sub(r"\n{3,}", "\n\n", s)`. -/
def squeezeNL (l : List Char) : List Char := squeezeNLAux 0 l

/-- Python `str.lstrip()`. -/
def stripLead (l : List Char) : List Char := l.dropWhile pyWS

/-- Python `str.rstrip()`. -/
def stripTrail (l : List Char) : List Char := (l.reverse.dropWhile pyWS).reverse

/-- Python `str.strip()`. -/
def stripPy (l : List Char) : List Char := stripTrail (stripLead l)

/-- Python `str.rstrip(".")`: drop trailing period characters. -/
def rstripDots (l : List Char) : List Char := (l.reverse.dropWhile (· == '.')).reverse

/-- Python truthiness test `not s.strip()` on a text value. -/
def isBlankL (l : List Char) : Bool := stripPy l == []

/-- `pat.isPrefixOf l`, written out so that all proofs are by plain induction. -/
def isPrefixL : List Char → List Char → Bool
  | [], _ => true
  | _ :: _, [] => false
  | a :: as, b :: bs => a == b && isPrefixL as bs

/-- Python `s.endswith(p)`. -/
def endsWithL (l p : List Char) : Bool := isPrefixL p (l.drop (l.length - p.length))

/-- Worker for `str.find`: first index `≥ i` at which `pat` occurs in `l`
(`l` is the remaining suffix, `i` its absolute offset). -/
def findFromAux (pat : List Char) : List Char → Nat → Option Nat
  | [], i => if isPrefixL pat [] then some i else none
  | l@(_ :: rest), i =>
    if isPrefixL pat l then some i else findFromAux pat rest (i + 1)

/-- Python `s.find(pat, start)` returning `none` instead of `-1`. -/
def findFrom (pat l : List Char) (start : Nat) : Option Nat :=
  findFromAux pat (l.drop start) start

/-- Worker for `re.finditer` with a literal pattern: left-to-right,
non-overlapping matches.  `skip` counts positions still covered by the last
match, at which no new match may start. -/
def findAllAux (pat : List Char) : List Char → Nat → Nat → List Nat
  | [], _, _ => []
  | l@(_ :: rest), i, 0 =>
    if isPrefixL pat l then i :: findAllAux pat rest (i + 1) (pat.length - 1)
    else findAllAux pat rest (i + 1) 0
  | _ :: rest, i, skip + 1 => findAllAux pat rest (i + 1) skip

/-- `[m.start() for m in re.finditer(pat, l)]` for a literal pattern. -/
def findAll (pat l : List Char) : List Nat := findAllAux pat l 0 0

/-- `_slice` of `DownloadText.py`: `text[start:end].strip()` (`end` optional). -/
def sliceL (t : List Char) (start : Nat) (stop? : Option Nat) : List Char :=
  match stop? with
  | none => stripPy (t.drop start)
  | some e => stripPy ((t.take e).drop start)

/-! ## Data model (§3 of the spec, shapes from the sources) -/

/-- The `audio` block written by `generate_tts.py` (lines 304-317). -/
structure AudioRef where
  provider : String
  model : String
  voice_name : String
  role : String
  style_profile_id : String
  audio_hash : List Char
  mime_type : String
  sample_rate_hz : Nat
  channels : Nat
  path : String
  cache_path : String
  generated_at : String
  deriving DecidableEq, Repr

/-- A manifest section, as built by `section_obj`, `template_to_manifest_section`
and `section_to_manifest_shape` (the constant `premium` block is omitted). -/
structure Section where
  id : String
  type : String
  title : String
  source_url : String
  text : List Char
  text_hash : List Char
  audio : Option AudioRef
  deriving DecidableEq, Repr

/-- The `templates.prayers` metadata block of `add_prayers_to_manifest.py`. -/
structure PrayersMeta where
  source : String
  included_ids : List String
  deriving DecidableEq, Repr

/-- The `generated_parts.gemini` metadata block of
`enrich_manifest_with_gemini.py`. -/
structure GeminiMeta where
  model : String
  included_ids : List String
  deriving DecidableEq, Repr

/-- The persisted manifest document (the fields the modelled operations read
or write; provenance fields untouched by every modelled operation, such as
`source`, are represented by `schema_version`, `date` and `title`). -/
structure Manifest where
  schema_version : String
  date : String
  title : String
  language : Option String
  sections : List Section
  templates_prayers : Option PrayersMeta
  generated_parts_gemini : Option GeminiMeta
  deriving DecidableEq, Repr

/-- The canonical section order `ORDER`, identical in
`add_prayers_to_manifest.py` and `enrich_manifest_with_gemini.py`. -/
def ORDER : List String :=
  ["welcome", "first_reading", "psalm", "second_reading", "gospel", "homily",
   "confiteor", "creed", "lords_prayer", "final_reflection", "closing"]

/-- One step of a Python `dict` update keyed by section id: replace the entry
with the same key in place, otherwise append at the end. -/
def dictUpsert : List Section → Section → List Section
  | [], s => [s]
  | x :: rest, s => if x.id == s.id then s :: rest else x :: dictUpsert rest s

/-- `{s["id"]: s for s in sections}`: a Python dict built by insertion. -/
def dictOfSections (l : List Section) : List Section := l.foldl dictUpsert []

/-- `existing.get(sec_id)` followed by the shared `second_reading` blank test
of the rebuild loops (`add_prayers_to_manifest.py` 84-90,
`enrich_manifest_with_gemini.py` 182-189). -/
def pickSection (existing : List Section) (sid : String) : Option Section :=
  match existing.find? (fun s => s.id == sid) with
  | none => none
  | some s =>
    if sid == "second_reading" && isBlankL s.text then none else some s

/-- The canonical part of the rebuilt `sections` list. -/
def rebuildSections (existing : List Section) : List Section :=
  ORDER.filterMap (pickSection existing)

/-- `[s for sid, s in existing.items() if sid not in set(ORDER)]`. -/
def sectionExtras (existing : List Section) : List Section :=
  existing.filter (fun s => !(ORDER.contains s.id))

namespace DownloadText

/-- `normalize_text` of `DownloadText.py` (lines 52-56): CR→LF, collapse
horizontal whitespace, squeeze blank lines, then strip. -/
def normalize_text (s : List Char) : List Char :=
  stripPy (squeezeNL (collapseHoriz (s.map (fun c => if c = '\r' then '\n' else c))))

/-- `_find_all(t, r"evangelio del día")` over the already-normalized text
(case-insensitive literal search). -/
def evDayPositions (t : List Char) : List Nat :=
  findAll (strL "evangelio del día") (lowerL t)

/-- Lines 85-92: the index of the gospel section header (`-1` becomes
`none`): the second occurrence if there are at least two, the only
occurrence if there is exactly one. -/
def evSectionIndex (t : List Char) : Option Nat :=
  match evDayPositions t with
  | _ :: p1 :: _ => some p1
  | [p0] => some p0
  | [] => none

/-- Line 95: `t.lower().find("lectura del santo evangelio", max(i_ev_section, 0))`. -/
def evReadingIndex (t : List Char) : Option Nat :=
  findFrom (strL "lectura del santo evangelio") (lowerL t)
    (match evSectionIndex t with | some p => p | none => 0)

/-- Lines 97-103: earliest end-of-gospel marker after the gospel start. -/
def evEndIndex (t : List Char) : Option Nat :=
  let start := match evReadingIndex t with | some p => p | none => 0
  let m1 := findFrom (strL "evangelio de hoy en vídeo") (lowerL t) start
  let m2 := findFrom (strL "reflexión del evangelio de hoy") (lowerL t) start
  match m1, m2 with
  | some a, some b => some (min a b)
  | some a, none => some a
  | none, some b => some b
  | none, none => none

/-- Lines 125-131: the gospel slice, including the fallback from the
"lectura del santo evangelio" start to the section-header start. -/
def gospelRaw (t : List Char) : List Char :=
  match evReadingIndex t with
  | some r => sliceL t r (evEndIndex t)
  | none =>
    match evSectionIndex t with
    | some p => sliceL t p (evEndIndex t)
    | none => []

/-- The section texts extracted by `extract_sections`. -/
structure Extracted where
  first_reading : List Char
  psalm : List Char
  second_reading : List Char
  gospel : List Char
  deriving DecidableEq, Repr

/-- `re.sub(r"^<marker>\s*", "", s, flags=re.I).strip()` used to clean the
first-reading and psalm slices (lines 134-135). -/
def dropLeadingMarker (marker : List Char) (s : List Char) : List Char :=
  if isPrefixL marker (lowerL s) then
    stripPy ((s.drop marker.length).dropWhile pyWS)
  else stripPy s

/-- The body of `extract_sections` after normalization (lines 79-141).
Returns `Except.error` for the `ValueError` raised when the gospel slice is
empty. -/
def extractCore (t : List Char) : Except String Extracted :=
  let i_first := findFrom (strL "primera lectura") (lowerL t) 0
  let i_psalm := findFrom (strL "salmo de hoy") (lowerL t) 0
  let i_second := findFrom (strL "segunda lectura") (lowerL t) 0
  let i_ev_section := evSectionIndex t
  let first_reading :=
    match i_first, i_psalm with
    | some f, some p => if f < p then sliceL t f (some p) else []
    | _, _ => []
  let psalm :=
    match i_psalm with
    | none => []
    | some p =>
      let next_cut :=
        match i_second with
        | some s2 => if p < s2 then some s2 else
            (match i_ev_section with
             | some ev => if p < ev then some ev else none
             | none => none)
        | none =>
          match i_ev_section with
          | some ev => if p < ev then some ev else none
          | none => none
      sliceL t p next_cut
  let second_reading :=
    match i_second, i_ev_section with
    | some s2, some ev => if s2 < ev then sliceL t s2 (some ev) else []
    | _, _ => []
  let gospel := gospelRaw t
  let first_reading := dropLeadingMarker (strL "primera lectura") first_reading
  let psalm := dropLeadingMarker (strL "salmo de hoy") psalm
  if gospel = [] then
    .error "No pude extraer la sección de Evangelio. Revisa marcadores del PDF."
  else
    .ok ⟨first_reading, psalm, second_reading, gospel⟩

/-- `extract_sections` of `DownloadText.py` (lines 75-141). -/
def extract_sections (raw : List Char) : Except String Extracted :=
  extractCore (normalize_text raw)

/-- `section_obj` inside `build_manifest` (lines 148-161); the SHA-256 call
is abstracted as `hash`. -/
def section_obj (hash : List Char → List Char) (source_url : String)
    (sec_id sec_type title : String) (text : List Char) : Section :=
  let text_n := normalize_text text
  { id := sec_id, type := sec_type, title := title, source_url := source_url,
    text := text_n,
    text_hash := hash (strL sec_id ++ '|' :: (strL sec_type ++ '|' :: text_n)),
    audio := none }

end DownloadText

namespace AddPrayers

/-- `normalize_text` of `add_prayers_to_manifest.py` (lines 25-29): strip
first, then collapse horizontal whitespace, then squeeze blank lines.
Unlike the `DownloadText` variant it never touches carriage returns. -/
def normalize_text (s : List Char) : List Char :=
  squeezeNL (collapseHoriz (stripPy s))

/-- A prayer template entry of `prayers_es.json`. -/
structure Template where
  id : String
  type : String
  title : String
  text : List Char
  deriving DecidableEq, Repr

/-- Lookup in `{t["id"]: t for t in templates}`: the last entry wins. -/
def lookupTemplate (tpls : List Template) (rid : String) : Option Template :=
  tpls.reverse.find? (fun t => t.id == rid)

/-- `template_to_manifest_section` (lines 42-54); SHA-256 abstracted as `hash`. -/
def template_to_manifest_section (hash : List Char → List Char)
    (tpl : Template) : Section :=
  let text := normalize_text tpl.text
  { id := tpl.id, type := tpl.type, title := tpl.title,
    source_url := "template:catholic_prayer:" ++ tpl.id,
    text := text,
    text_hash := hash (strL tpl.id ++ '|' :: (strL tpl.type ++ '|' :: text)),
    audio := none }

/-- `required_ids` (line 70). -/
def requiredPrayerIds : List String := ["confiteor", "creed", "lords_prayer"]

/-- `upsert_prayers_into_manifest` (lines 56-103): the template file is passed
as its parsed content `tpls` together with its resolved path string.  A
missing required template raises `KeyError`, modelled as `Except.error`. -/
def upsert_prayers_into_manifest (hash : List Char → List Char)
    (m : Manifest) (templatesPath : String) (tpls : List Template) :
    Except String Manifest :=
  match requiredPrayerIds.find? (fun rid => (lookupTemplate tpls rid).isNone) with
  | some rid => .error ("Falta plantilla requerida en prayers_es.json: " ++ rid)
  | none =>
    let prayerSections :=
      requiredPrayerIds.filterMap (fun rid =>
        (lookupTemplate tpls rid).map (template_to_manifest_section hash))
    let existing := prayerSections.foldl dictUpsert (dictOfSections m.sections)
    .ok { m with
          sections := rebuildSections existing ++ sectionExtras existing,
          templates_prayers := some ⟨templatesPath, requiredPrayerIds⟩ }

end AddPrayers

namespace EnrichGemini

/-- `normalize_text` of `enrich_manifest_with_gemini.py` (lines 11-15);
identical to the `AddPrayers` variant. -/
def normalize_text (s : List Char) : List Char :=
  squeezeNL (collapseHoriz (stripPy s))

/-- One entry of the parsed `sections` array of the Gemini response; a JSON
key may be absent, hence the `Option` fields. -/
structure RawSection where
  id : Option String
  type : Option String
  title : Option String
  text : Option String
  deriving DecidableEq, Repr

/-- A validated generated section (`{id, type, title, text}` with the text
already normalized in place, line 137). -/
structure GenSection where
  id : String
  type : String
  title : String
  text : List Char
  deriving DecidableEq, Repr

/-- `k not in s or not str(s[k]).strip()`. -/
def fieldBlank : Option String → Bool
  | none => true
  | some v => isBlankL v.data

/-- Validation of one response section (lines 132-137). -/
def validateRawSection (s : RawSection) : Except String GenSection :=
  if fieldBlank s.id then .error "Sección inválida en respuesta Gemini. Falta/campo vacío: id"
  else if fieldBlank s.type then .error "Sección inválida en respuesta Gemini. Falta/campo vacío: type"
  else if fieldBlank s.title then .error "Sección inválida en respuesta Gemini. Falta/campo vacío: title"
  else if fieldBlank s.text then .error "Sección inválida en respuesta Gemini. Falta/campo vacío: text"
  else
    .ok { id := (s.id.getD ""), type := (s.type.getD ""),
          title := (s.title.getD ""),
          text := normalize_text (s.text.getD "").data }

/-- Worker: validate the sections one after the other, stopping at the first
failure exactly as the `for` loop of lines 132-137 does. -/
def validateRawSections : List RawSection → Except String (List GenSection)
  | [] => .ok []
  | s :: rest =>
    match validateRawSection s with
    | .error e => .error e
    | .ok g =>
      match validateRawSections rest with
      | .error e => .error e
      | .ok gs => .ok (g :: gs)

/-- The response validation of `gemini_generate_liturgy_parts`
(lines 127-139): reject an empty `sections` array, then validate every
section field; on success return the sections with normalized text. -/
def gemini_validate_response (sections : List RawSection) :
    Except String (List GenSection) :=
  if sections.isEmpty then
    .error "Respuesta de Gemini inválida: falta sections[]"
  else validateRawSections sections

/-- `section_to_manifest_shape` (lines 158-170); SHA-256 abstracted. -/
def section_to_manifest_shape (hash : List Char → List Char)
    (g : GenSection) : Section :=
  let text := normalize_text g.text
  { id := g.id, type := g.type, title := g.title,
    source_url := "generated_by_gemini",
    text := text,
    text_hash := hash (strL g.id ++ '|' :: (strL g.type ++ '|' :: text)),
    audio := none }

/-- `enrich_manifest` (lines 172-198); `geminiModel` is the `GEMINI_MODEL`
configuration value. -/
def enrich_manifest (hash : List Char → List Char) (geminiModel : String)
    (m : Manifest) (generated_sections : List GenSection) : Manifest :=
  let existing :=
    (generated_sections.map (section_to_manifest_shape hash)).foldl dictUpsert
      (dictOfSections m.sections)
  { m with
    sections := rebuildSections existing,
    language := match m.language with | some v => some v | none => some "es-CO",
    generated_parts_gemini :=
      some ⟨geminiModel, generated_sections.map (·.id)⟩ }

/-- The enrichment stage of `gemini_generate_main` (lines 219-222): the
manifest is only merged and saved after `gemini_generate_liturgy_parts`
returned successfully; a validation error propagates and leaves the
persisted manifest untouched. -/
def gemini_enrich_stage (hash : List Char → List Char) (geminiModel : String)
    (m : Manifest) (response : List RawSection) : Except String Manifest :=
  match gemini_validate_response response with
  | .error e => .error e
  | .ok gs => .ok (enrich_manifest hash geminiModel m gs)

end EnrichGemini

namespace GenerateTTS

/-- `normalize_text` of `generate_tts.py` (lines 90-94); same recipe as the
`AddPrayers` variant (`(s or "")` is the identity on actual strings). -/
def normalize_text (s : List Char) : List Char :=
  squeezeNL (collapseHoriz (stripPy s))

/-- `VOICE_BY_SECTION.get(sec_id, "PRIEST")` (lines 52-67, 271). -/
def roleFor (sec_id : String) : String :=
  if sec_id == "first_reading" || sec_id == "psalm" || sec_id == "second_reading"
  then "LECTOR" else "PRIEST"

/-- The TTS configuration consumed by `generate_tts_for_manifest`: model id,
style profile, the two voices, the assets directory, the manifest date and
the `utc_now_iso()` timestamp of the run. -/
structure TtsConfig where
  assets_dir : String
  model : String
  style_profile_id : String
  voice_priest : String
  voice_lector : String
  date_str : String
  now : String
  deriving Repr

/-- `VOICE_PROFILES.get(role, VOICE_PROFILES["PRIEST"])["voice_name"]`. -/
def voiceNameFor (cfg : TtsConfig) (role : String) : String :=
  if role == "LECTOR" then cfg.voice_lector else cfg.voice_priest

/-- `CLOSING_PHRASE_BY_SECTION.get(sec_id)` (lines 76-81). -/
def closingPhraseFor (sec_id : String) : Option (List Char) :=
  if sec_id == "first_reading" then some (strL "Palabra de Dios.")
  else if sec_id == "second_reading" then some (strL "Palabra de Dios.")
  else if sec_id == "psalm" then some (strL "Palabra de Dios.")
  else if sec_id == "gospel" then some (strL "Palabra del Señor.")
  else none

/-- `add_closing_phrase` (lines 113-125): append the liturgical closing
phrase unless the text already ends with it, comparing the lower-cased
texts with trailing periods stripped. -/
def add_closing_phrase (sec_id : String) (text : List Char) : List Char :=
  match closingPhraseFor sec_id with
  | none => text
  | some phrase =>
    let t := stripTrail text
    let t_low := rstripDots (lowerL t)
    let p_low := rstripDots (lowerL phrase)
    if endsWithL t_low p_low then text
    else t ++ '\n' :: '\n' :: phrase

/-- `compute_audio_hash` (lines 127-129); the SHA-256 call is abstracted as
`hash`, the pipe-joined payload is built exactly as the f-string does. -/
def compute_audio_hash (hash : List Char → List Char) (text_hash : List Char)
    (model voice_name style_profile_id : String) : List Char :=
  hash (text_hash ++ '|' ::
    (strL model ++ '|' :: (strL voice_name ++ '|' :: strL style_profile_id)))

/-- The audio hash assigned to a section by `generate_tts_for_manifest`
(lines 271-278): it reads only the section's `id` (through the role/voice
tables) and its `text_hash`, besides the run configuration. -/
def sectionAudioHash (hash : List Char → List Char) (cfg : TtsConfig)
    (sec : Section) : List Char :=
  compute_audio_hash hash sec.text_hash cfg.model
    (voiceNameFor cfg (roleFor sec.id)) cfg.style_profile_id

/-- The canonical cache path
`assets_dir / "cache" / style_profile_id / voice_name / f"{audio_hash}.wav"`
(lines 284-285). -/
def cachePathOf (cfg : TtsConfig) (voice_name : String)
    (audio_hash : List Char) : String :=
  cfg.assets_dir ++ "/cache/" ++ cfg.style_profile_id ++ "/" ++ voice_name
    ++ "/" ++ String.mk audio_hash ++ ".wav"

/-- The by-date convenience path `by_date_dir / f"{sec_id}.wav"`
(lines 255, 139-141). -/
def dailyPathOf (cfg : TtsConfig) (sec_id : String) : String :=
  cfg.assets_dir ++ "/by-date/" ++ cfg.date_str ++ "/" ++ sec_id ++ ".wav"

/-- A file system: path → stored bytes (audio bytes are abstract `List Nat`). -/
def FS : Type := String → Option (List Nat)

/-- Point update of a file system. -/
def fsWrite (fs : FS) (p : String) (b : Option (List Nat)) : FS :=
  fun q => if q = p then b else fs q

/-- `link_audio_to_date` (lines 139-144): copy the cache artifact to the
daily path only when no file exists there yet. -/
def link_audio_to_date (fs : FS) (cache_path daily : String) : FS :=
  if (fs daily).isSome then fs else fsWrite fs daily (fs cache_path)

/-- One iteration of the section loop of `generate_tts_for_manifest`
(lines 262-319), for a synthesis collaborator `synth` that always succeeds
(the retry wrapper is modelled separately): skip sections without text or
text hash; on cache miss synthesize and write the cache artifact; always
ensure the daily copy; update the section's `audio` block. -/
def tts_process_section (hash : List Char → List Char)
    (synth : List Char → List Nat) (cfg : TtsConfig) (fs : FS)
    (sec : Section) : FS × Section :=
  let text := normalize_text sec.text
  if text = [] ∨ sec.text_hash = [] then (fs, sec)
  else
    let role := roleFor sec.id
    let voice_name := voiceNameFor cfg role
    let tts_text := add_closing_phrase sec.id text
    let audio_hash := sectionAudioHash hash cfg sec
    let cache_path := cachePathOf cfg voice_name audio_hash
    let fs1 :=
      if (fs cache_path).isSome then fs
      else fsWrite fs cache_path (some (synth tts_text))
    let daily := dailyPathOf cfg sec.id
    let fs2 := link_audio_to_date fs1 cache_path daily
    (fs2,
     { sec with audio := some (AudioRef.mk "gemini-tts" cfg.model voice_name
        role cfg.style_profile_id audio_hash "audio/wav" 24000 1
        daily cache_path cfg.now) })

/-! ### The retry combinator (`gemini_tts_request_with_retry`, lines 193-227) -/

/-- The exceptions distinguished by the retry loop: `requests` HTTP errors
with an optional status code, timeouts, connection failures, and any other
exception (which the loop does not catch). -/
inductive TtsErr where
  | http (status : Option Nat)
  | timeout
  | conn
  | other (msg : String)
  deriving DecidableEq, Repr

/-- `status in (429, 500, 502, 503, 504)` (line 214). -/
def transientHttpStatus : Option Nat → Bool
  | some n => n == 429 || n == 500 || n == 502 || n == 503 || n == 504
  | none => false

/-- Which failures the loop retries: transient HTTP statuses (line 214) and
`(Timeout, ConnectionError)` (line 220). -/
def isTransientErr : TtsErr → Bool
  | .http st => transientHttpStatus st
  | .timeout => true
  | .conn => true
  | .other _ => false

/-- The observable outcome of the retry loop: the payload together with the
total `time.sleep` duration, exhaustion of the attempts (`RuntimeError`
carrying the last error), or an immediately propagated exception. -/
inductive RetryResult where
  | success (payload : Nat) (totalSleep : Nat)
  | exhausted (lastErr : Option TtsErr) (totalSleep : Nat)
  | raised (e : TtsErr) (totalSleep : Nat)
  deriving DecidableEq, Repr

/-- The `for attempt in range(1, max_retries + 1)` loop with
`delay = 2` / `delay = min(delay * 2, 30)`; `call n` is the outcome of
`gemini_tts_request` on attempt `n`. -/
def retryAux (call : Nat → Except TtsErr Nat) :
    Nat → Nat → Nat → Nat → Option TtsErr → RetryResult
  | 0, _, _, slept, lastErr => .exhausted lastErr slept
  | remaining + 1, attempt, delay, slept, _ =>
    match call attempt with
    | .ok p => .success p slept
    | .error e =>
      if isTransientErr e then
        retryAux call remaining (attempt + 1) (min (delay * 2) 30)
          (slept + delay) (some e)
      else .raised e slept

/-- `gemini_tts_request_with_retry` (lines 193-227), `max_retries = 6` by
default at every call site. -/
def gemini_tts_request_with_retry (call : Nat → Except TtsErr Nat)
    (max_retries : Nat := 6) : RetryResult :=
  retryAux call max_retries 1 2 0 none

end GenerateTTS

namespace GenerateAll

open GenerateTTS (FS)

/-- `clear_missing_audio_entries` applied to one section
(`generate_all_manifest.py` lines 91-99): clear the audio block when its
recorded path is non-blank and the file no longer exists.  `ex p` models
`Path(p).exists()`. -/
def clearSectionAudio (ex : String → Bool) (s : Section) : Section :=
  match s.audio with
  | none => s
  | some a =>
    let p := String.mk (stripPy a.path.data)
    if p ≠ "" ∧ ex p = false then { s with audio := none } else s

/-- `clear_missing_audio_entries` (lines 87-103). -/
def clear_missing_audio_entries (ex : String → Bool) (m : Manifest) : Manifest :=
  { m with sections := m.sections.map (clearSectionAudio ex) }

/-- The per-section test of `all_sections_have_audio` (lines 31-44). -/
def sectionAudioOk (ex : String → Bool) (s : Section) : Bool :=
  if isBlankL s.text then true
  else
    match s.audio with
    | none => false
    | some a =>
      let p := String.mk (stripPy a.path.data)
      !(p == "") && ex p

/-- `all_sections_have_audio` (lines 31-44). -/
def all_sections_have_audio (ex : String → Bool) (m : Manifest) : Bool :=
  m.sections.all (sectionAudioOk ex)

/-- `ensure_tts` (lines 105-120) up to its stage decision: the loaded
manifest is reconciled, the reconciled document is what gets persisted, and
the satisfaction predicate is evaluated on that persisted document; the
boolean records whether `generate_tts_for_manifest` runs. -/
def ensure_tts (ex : String → Bool) (m : Manifest) : Manifest × Bool :=
  let m' := clear_missing_audio_entries ex m
  (m', !(all_sections_have_audio ex m'))

end GenerateAll

/-! ## Specification-side predicates used by the claim statements -/

/-- The rank of a section id in the canonical order (`ORDER.length` for ids
outside the canonical set). -/
def canonicalRank (sid : String) : Nat := ORDER.findIdx (· == sid)

/-- The canonical sections of a list appear in strictly increasing canonical
rank (the spec's "matches the fixed canonical order"). -/
def inCanonicalOrder (l : List Section) : Prop :=
  (l.filter (fun s => ORDER.contains s.id)).Pairwise
    (fun a b => canonicalRank a.id < canonicalRank b.id)

/-- The list splits into a canonical block followed by the non-canonical
extras (the spec's "appended after the canonical ones"). -/
def extrasAfterCanonical (l : List Section) : Prop :=
  ∃ a b, l = a ++ b ∧ (∀ s ∈ a, s.id ∈ ORDER) ∧ (∀ s ∈ b, s.id ∉ ORDER)

/-- No persisted `second_reading` section has blank text. -/
def noBlankSecondReading (l : List Section) : Prop :=
  ∀ s ∈ l, s.id = "second_reading" → isBlankL s.text = false

/-- Section ids are pairwise distinct. -/
def idsNodup (l : List Section) : Prop := (l.map (·.id)).Nodup

/-- Detects two adjacent horizontal-whitespace characters: its falsity is the
spec's "horizontal whitespace runs are collapsed". -/
def hasDoubleHoriz : List Char → Bool
  | a :: b :: rest => (isHoriz a && isHoriz b) || hasDoubleHoriz (b :: rest)
  | _ => false

/-- Detects three consecutive newlines: its falsity is the spec's "at most
one blank line separates paragraphs". -/
def hasTripleNL : List Char → Bool
  | a :: b :: c :: rest =>
    (a == '\n' && b == '\n' && c == '\n') || hasTripleNL (b :: c :: rest)
  | _ => false

/-- The first character, if any, is not whitespace. -/
def headNonWS (l : List Char) : Bool :=
  match l.head? with
  | none => true
  | some c => !(pyWS c)

/-- No leading and no trailing whitespace. -/
def noLeadTrailWS (l : List Char) : Bool := headNonWS l && headNonWS l.reverse

/-- Full normalization as the spec states it: no carriage returns, collapsed
horizontal whitespace, at most one blank line, no leading or trailing
whitespace. -/
def specNormalized (l : List Char) : Prop :=
  l.contains '\r' = false ∧ hasDoubleHoriz l = false ∧
    hasTripleNL l = false ∧ noLeadTrailWS l = true

/-- Normalization without the carriage-return clause (what the
`AddPrayers`/`EnrichGemini`/`GenerateTTS` normalizer actually guarantees). -/
def specNormalizedNoCRClause (l : List Char) : Prop :=
  hasDoubleHoriz l = false ∧ hasTripleNL l = false ∧ noLeadTrailWS l = true

/-- Modelled from the spec: "trailing-punctuation-stripped" comparison for
the closing-phrase duplicate guard (the code strips only `"."`).  Used to
state the counterexample for that claim. -/
def rstripPunct (l : List Char) : List Char :=
  (l.reverse.dropWhile (fun c =>
    c == '.' || c == ',' || c == ';' || c == ':' || c == '!' || c == '?')).reverse

/-- A dangling audio reference: a recorded non-blank artifact path that no
longer exists on storage. -/
def danglingAudio (ex : String → Bool) (s : Section) : Prop :=
  ∃ a, s.audio = some a ∧ String.mk (stripPy a.path.data) ≠ "" ∧
    ex (String.mk (stripPy a.path.data)) = false

/-! ## Concrete inputs used by witnesses and counterexamples -/

/-- An injective stand-in for the abstracted SHA-256 function, used to
evaluate the definitions at concrete inputs. -/
def idHash : List Char → List Char := fun l => l

/-- A section whose id is outside the canonical set. -/
def extraSectionW : Section :=
  { id := "announcements", type := "speech", title := "Avisos",
    source_url := "test", text := strL "Avisos parroquiales.",
    text_hash := strL "h-ann", audio := none }

/-- A generated `welcome` section. -/
def welcomeGenW : EnrichGemini.GenSection :=
  { id := "welcome", type := "speech", title := "Bienvenida",
    text := strL "Bienvenidos a la misa." }

/-- A gospel section with text. -/
def gospelSectionW : Section :=
  { id := "gospel", type := "gospel", title := "Evangelio",
    source_url := "test", text := strL "En aquel tiempo...",
    text_hash := strL "h-gospel", audio := none }

/-- A small manifest used as concrete input. -/
def manifestW : Manifest :=
  { schema_version := "1.0", date := "2026-01-07", title := "Misa Virtual",
    language := some "es-CO",
    sections := [gospelSectionW, extraSectionW],
    templates_prayers := none, generated_parts_gemini := none }

/-- Concrete prayer templates for the three required ids. -/
def templatesW : List AddPrayers.Template :=
  [{ id := "confiteor", type := "prayer", title := "Yo confieso",
     text := strL "Yo confieso ante Dios." },
   { id := "creed", type := "prayer", title := "Credo",
     text := strL "Creo en Dios Padre." },
   { id := "lords_prayer", type := "prayer", title := "Padre nuestro",
     text := strL "Padre nuestro que estás en el cielo." }]

/-- A template whose raw text contains a carriage return in the middle. -/
def crTemplateW : AddPrayers.Template :=
  { id := "confiteor", type := "prayer", title := "Yo confieso",
    text := strL "Yo confieso\r\nante Dios." }

/-- A Gemini response containing only a `welcome` section. -/
def welcomeOnlyResponseW : List EnrichGemini.RawSection :=
  [{ id := some "welcome", type := some "speech", title := some "Bienvenida",
     text := some "Bienvenidos a la misa." }]

/-- A Gemini response whose second section has a blank title. -/
def blankTitleResponseW : List EnrichGemini.RawSection :=
  [{ id := some "welcome", type := some "speech", title := some "Bienvenida",
     text := some "Bienvenidos." },
   { id := some "homily", type := some "homily", title := some "  ",
     text := some "Hermanos." }]

/-- A synthesis collaborator that returns HTTP 429 on the first two attempts
and succeeds on the third. -/
def callRateLimitedTwiceW : Nat → Except GenerateTTS.TtsErr Nat :=
  fun attempt => if attempt ≤ 2 then .error (.http (some 429)) else .ok 42

/-- A synthesis collaborator that always times out. -/
def callAlwaysTimeoutW : Nat → Except GenerateTTS.TtsErr Nat :=
  fun _ => .error .timeout

/-- A synthesis collaborator that fails fatally at once. -/
def callFatalW : Nat → Except GenerateTTS.TtsErr Nat :=
  fun _ => .error (.other "Missing GEMINI_API_KEY")

/-- A synthesis collaborator that always fails with HTTP 501 — a 5xx
status that is outside the retried set `(429, 500, 502, 503, 504)`. -/
def call501W : Nat → Except GenerateTTS.TtsErr Nat :=
  fun _ => .error (.http (some 501))

/-- A concrete TTS configuration. -/
def cfgW : GenerateTTS.TtsConfig :=
  { assets_dir := "data/assets/audio", model := "gemini-2.5-flash-preview-tts",
    style_profile_id := "priest_es_co_v1", voice_priest := "Charon",
    voice_lector := "Kore", date_str := "2026-01-07",
    now := "2026-01-07T06:00:00Z" }

/-- A file system containing only a stale daily artifact for the gospel. -/
def fsDailyOnlyW : GenerateTTS.FS :=
  fun p => if p = "data/assets/audio/by-date/2026-01-07/gospel.wav"
           then some [7, 7, 7] else none

/-- A synthesis stub. -/
def synthW : List Char → List Nat := fun l => [l.length]

/-- A section holding a dangling audio reference. -/
def danglingSectionW : Section :=
  { gospelSectionW with
    audio := some (AudioRef.mk "gemini-tts" "m" "Charon" "PRIEST"
      "priest_es_co_v1" (strL "ah") "audio/wav" 24000 1
      "data/assets/audio/by-date/2026-01-07/gospel.wav"
      "data/assets/audio/cache/x.wav" "t") }

/-- A manifest holding the dangling section. -/
def danglingManifestW : Manifest :=
  { manifestW with sections := [danglingSectionW] }

/-- The text used to refute the punctuation-stripping reading of the
duplicate guard: it already ends with the closing phrase, up to trailing
punctuation. -/
def bangTextW : List Char := strL "Lectura santa. Palabra de Dios!"

/-- `gospelSectionW` with every hash-irrelevant field changed. -/
def gospelSectionAltW : Section :=
  { gospelSectionW with
    title := "Otro título"
    text := strL "otro texto"
    source_url := "otra-url" }


/-! # Theorems

Helper lemmas first, then one theorem per claim (with witness or
counterexample where required). -/

open GenerateTTS in
/-- C4: the synthesis retry combinator classifies exactly HTTP 429, 500,
502, 503 and 504 — not every 5xx status — together with timeouts and
connection failures as transient, and retries those with exponential
backoff (base 2 s, doubled each attempt, capped at 30 s) for at most the
fixed attempt count; a run that fails twice with 429 and then succeeds
returns the payload having slept 2 + 4 seconds; any non-transient failure
(so in particular HTTP 501 or 505) propagates immediately without sleeping;
six transient failures exhaust the attempts and raise a fatal error
carrying the last underlying error, with total sleep
2 + 4 + 8 + 16 + 30 + 30. -/
theorem C4_retry_backoff :
    (∀ n, transientHttpStatus (some n) = true ↔
        n = 429 ∨ n = 500 ∨ n = 502 ∨ n = 503 ∨ n = 504) ∧
    (∀ call p, call 1 = .error (.http (some 429)) →
        call 2 = .error (.http (some 429)) → call 3 = .ok p →
        gemini_tts_request_with_retry call 6 = .success p (2 + 4)) ∧
    (∀ call e, isTransientErr e = false → call 1 = .error e →
        gemini_tts_request_with_retry call 6 = .raised e 0) ∧
    (∀ call, (∀ a, 1 ≤ a → a ≤ 6 → ∃ e, call a = .error e ∧ isTransientErr e = true) →
        ∃ e, call 6 = .error e ∧
          gemini_tts_request_with_retry call 6 =
            .exhausted (some e) (2 + 4 + 8 + 16 + 30 + 30)) := by
  refine ⟨?_, ?_, ?_, ?_⟩
  · intro n
    simp only [transientHttpStatus, Bool.or_eq_true, beq_iff_eq]
    tauto
  · intro call p h1 h2 h3
    simp [gemini_tts_request_with_retry, retryAux, h1, h2, h3, isTransientErr,
      transientHttpStatus]
  · intro call e ht h1
    simp [gemini_tts_request_with_retry, retryAux, h1, ht]
  · intro call h
    obtain ⟨e1, he1, ht1⟩ := h 1 (by omega) (by omega)
    obtain ⟨e2, he2, ht2⟩ := h 2 (by omega) (by omega)
    obtain ⟨e3, he3, ht3⟩ := h 3 (by omega) (by omega)
    obtain ⟨e4, he4, ht4⟩ := h 4 (by omega) (by omega)
    obtain ⟨e5, he5, ht5⟩ := h 5 (by omega) (by omega)
    obtain ⟨e6, he6, ht6⟩ := h 6 (by omega) (by omega)
    refine ⟨e6, he6, ?_⟩
    simp [gemini_tts_request_with_retry, retryAux, he1, ht1, he2, ht2, he3,
      ht3, he4, ht4, he5, ht5, he6, ht6]

open GenerateTTS in
/-- Witness for C4 at concrete synthesis collaborators. -/
theorem C4_retry_backoff_witness :
    gemini_tts_request_with_retry callRateLimitedTwiceW 6 = .success 42 6 ∧
    gemini_tts_request_with_retry callFatalW 6 =
      .raised (.other "Missing GEMINI_API_KEY") 0 ∧
    gemini_tts_request_with_retry callAlwaysTimeoutW 6 =
      .exhausted (some .timeout) 90 := by
  refine ⟨C4_retry_backoff.2.1 callRateLimitedTwiceW 42 rfl rfl rfl,
    C4_retry_backoff.2.2.1 callFatalW _ rfl rfl, ?_⟩
  obtain ⟨e, he, hr⟩ :=
    C4_retry_backoff.2.2.2 callAlwaysTimeoutW (fun a _ _ => ⟨.timeout, rfl, rfl⟩)
  have : e = TtsErr.timeout := by
    have he' : Except.error (ε := TtsErr) (α := Nat) TtsErr.timeout = .error e := he
    exact (Except.error.injEq _ _ ▸ he').symm
  rw [this] at hr
  exact hr

open GenerateTTS in
/-- Counterexample for C4: HTTP 501 is a 5xx status, yet the combinator
does not classify it as transient — a collaborator that fails with 501 has
its error propagated immediately, with no retry and no sleep. -/
theorem C4_retry_backoff_counterexample :
    500 ≤ 501 ∧ 501 < 600 ∧
    isTransientErr (.http (some 501)) = false ∧
    gemini_tts_request_with_retry call501W 6 = .raised (.http (some 501)) 0 :=
  ⟨by decide, by decide, rfl, rfl⟩

/-- Right cancellation of list append, in the form used below. -/
theorem listAppendCancelRight {α : Type} {a b t : List α} (h : a ++ t = b ++ t) :
    a = b := by
  have := congrArg List.reverse h
  simp only [List.reverse_append] at this
  have := List.append_cancel_left this
  simpa using congrArg List.reverse this

/-- Strings with equal character data are equal. -/
theorem stringDataInj {a b : String} (h : a.data = b.data) : a = b := by
  cases a; cases b; exact congrArg String.mk h

open GenerateTTS in
/-- C3: the audio cache key is deterministic — for a fixed configuration it
depends only on the section's `text_hash` and (through the role tables) its
`id`, never on titles, texts, timestamps or other metadata — and, for an
injective hash function, changing exactly one of `text_hash`, `model`,
`voice_name`, `style_profile_id` changes `compute_audio_hash`. -/
theorem C3_audio_hash_key :
    (∀ (hash : List Char → List Char) (cfg : TtsConfig) (s1 s2 : Section),
        s1.id = s2.id → s1.text_hash = s2.text_hash →
        sectionAudioHash hash cfg s1 = sectionAudioHash hash cfg s2) ∧
    (∀ hash, Function.Injective hash → ∀ th th' (m v s : String), th ≠ th' →
        compute_audio_hash hash th m v s ≠ compute_audio_hash hash th' m v s) ∧
    (∀ hash, Function.Injective hash → ∀ th (m m' v s : String), m ≠ m' →
        compute_audio_hash hash th m v s ≠ compute_audio_hash hash th m' v s) ∧
    (∀ hash, Function.Injective hash → ∀ th (m v v' s : String), v ≠ v' →
        compute_audio_hash hash th m v s ≠ compute_audio_hash hash th m v' s) ∧
    (∀ hash, Function.Injective hash → ∀ th (m v s s' : String), s ≠ s' →
        compute_audio_hash hash th m v s ≠ compute_audio_hash hash th m v s') := by
  refine ⟨?_, ?_, ?_, ?_, ?_⟩
  · intro hash cfg s1 s2 hid hth
    simp [sectionAudioHash, hid, hth]
  · intro hash hinj th th' m v s hne heq
    have hp := hinj heq
    simp only [compute_audio_hash] at hp
    exact hne (listAppendCancelRight hp)
  · intro hash hinj th m m' v s hne heq
    have hp := hinj heq
    simp only [compute_audio_hash] at hp
    have h1 := List.append_cancel_left hp
    have h2 : strL m ++ ('|' :: (strL v ++ '|' :: strL s)) =
        strL m' ++ ('|' :: (strL v ++ '|' :: strL s)) := by
      simpa using h1
    exact hne (stringDataInj (listAppendCancelRight h2))
  · intro hash hinj th m v v' s hne heq
    have hp := hinj heq
    simp only [compute_audio_hash] at hp
    have h1 := List.append_cancel_left hp
    simp only [List.cons.injEq, true_and] at h1
    have h2 := List.append_cancel_left h1
    have h3 : strL v ++ ('|' :: strL s) = strL v' ++ ('|' :: strL s) := by
      simpa using h2
    exact hne (stringDataInj (listAppendCancelRight h3))
  · intro hash hinj th m v s s' hne heq
    have hp := hinj heq
    simp only [compute_audio_hash] at hp
    have h1 := List.append_cancel_left hp
    simp only [List.cons.injEq, true_and] at h1
    have h2 := List.append_cancel_left h1
    simp only [List.cons.injEq, true_and] at h2
    have h3 := List.append_cancel_left h2
    simp only [List.cons.injEq, true_and] at h3
    exact hne (stringDataInj h3)

open GenerateTTS in
/-- Witness for C3 at concrete sections, configuration and the injective
stand-in hash. -/
theorem C3_audio_hash_key_witness :
    sectionAudioHash idHash cfgW gospelSectionW =
      sectionAudioHash idHash cfgW gospelSectionAltW ∧
    compute_audio_hash idHash (strL "h1") "m" "v" "s" ≠
      compute_audio_hash idHash (strL "h2") "m" "v" "s" ∧
    compute_audio_hash idHash (strL "h") "m1" "v" "s" ≠
      compute_audio_hash idHash (strL "h") "m2" "v" "s" ∧
    compute_audio_hash idHash (strL "h") "m" "Charon" "s" ≠
      compute_audio_hash idHash (strL "h") "m" "Kore" "s" ∧
    compute_audio_hash idHash (strL "h") "m" "v" "s1" ≠
      compute_audio_hash idHash (strL "h") "m" "v" "s2" := by
  have hinj : Function.Injective idHash := fun _ _ h => h
  exact ⟨C3_audio_hash_key.1 idHash cfgW _ _ rfl rfl,
    C3_audio_hash_key.2.1 idHash hinj _ _ "m" "v" "s" (by decide),
    C3_audio_hash_key.2.2.1 idHash hinj _ "m1" "m2" "v" "s" (by decide),
    C3_audio_hash_key.2.2.2.1 idHash hinj _ "m" "Charon" "Kore" "s" (by decide),
    C3_audio_hash_key.2.2.2.2 idHash hinj _ "m" "v" "s1" "s2" (by decide)⟩

open DownloadText in
/-- C2: gospel extraction boundary behaviour.  Extraction first normalizes
the text; if the header phrase "evangelio del día" occurs fewer than twice,
its single occurrence (if any) becomes the gospel-section start; if it is
absent and "lectura del santo evangelio" does not occur either, extraction
fails with the `ValueError`; and extraction fails exactly when the gospel
slice is empty after all fallbacks. -/
theorem C2_gospel_extraction :
    (∀ raw, extract_sections raw = extractCore (normalize_text raw)) ∧
    (∀ t, (evDayPositions t).length < 2 →
        evSectionIndex t = (evDayPositions t).head?) ∧
    (∀ t, evDayPositions t = [] → evReadingIndex t = none →
        ∃ e, extractCore t = .error e) ∧
    (∀ t, (∃ e, extractCore t = .error e) ↔ gospelRaw t = []) := by
  refine ⟨fun _ => rfl, ?_, ?_, ?_⟩
  · intro t h
    cases hev : evDayPositions t with
    | nil => simp [evSectionIndex, hev]
    | cons p rest =>
      cases rest with
      | nil => simp [evSectionIndex, hev]
      | cons q rest' =>
        rw [hev] at h
        simp only [List.length_cons] at h
        omega
  · intro t h1 h2
    have hsec : evSectionIndex t = none := by simp [evSectionIndex, h1]
    have hg : gospelRaw t = [] := by simp [gospelRaw, h2, hsec]
    exact ⟨"No pude extraer la sección de Evangelio. Revisa marcadores del PDF.",
      by simp [extractCore, hg]⟩
  · intro t
    constructor
    · rintro ⟨e, he⟩
      by_cases hg : gospelRaw t = []
      · exact hg
      · simp [extractCore, hg] at he
    · intro hg
      exact ⟨"No pude extraer la sección de Evangelio. Revisa marcadores del PDF.",
        by simp [extractCore, hg]⟩

open DownloadText in
/-- Witness for C2 at a concrete marker-free text. -/
theorem C2_gospel_extraction_witness :
    (evDayPositions (strL "hola")).length < 2 ∧
    evSectionIndex (strL "hola") = (evDayPositions (strL "hola")).head? ∧
    (∃ e, extractCore (strL "hola") = .error e) := by
  refine ⟨by decide, C2_gospel_extraction.2.1 _ (by decide),
    C2_gospel_extraction.2.2.1 _ (by decide) (by decide)⟩

open EnrichGemini in
/-- A single response section validates iff none of its four fields is
missing or blank after trimming. -/
theorem validateRawSection_ok_iff (s : RawSection) :
    (∃ g, validateRawSection s = .ok g) ↔
      (fieldBlank s.id = false ∧ fieldBlank s.type = false ∧
       fieldBlank s.title = false ∧ fieldBlank s.text = false) := by
  unfold validateRawSection
  split_ifs with h1 h2 h3 h4 <;> simp_all

open EnrichGemini in
/-- The section-list validation loop succeeds iff every section passes. -/
theorem validateRawSections_ok_iff (raws : List RawSection) :
    (∃ gs, validateRawSections raws = .ok gs) ↔
      ∀ r ∈ raws, fieldBlank r.id = false ∧ fieldBlank r.type = false ∧
        fieldBlank r.title = false ∧ fieldBlank r.text = false := by
  induction raws with
  | nil => simp [validateRawSections]
  | cons s rest ih =>
    unfold validateRawSections
    cases hv : validateRawSection s with
    | error e =>
      have : ¬ ∃ g, validateRawSection s = .ok g := by simp [hv]
      rw [validateRawSection_ok_iff] at this
      simp only [List.mem_cons]
      constructor
      · rintro ⟨gs, hgs⟩; simp at hgs
      · intro h
        exact absurd (h s (Or.inl rfl)) this
    | ok g =>
      have hs : fieldBlank s.id = false ∧ fieldBlank s.type = false ∧
          fieldBlank s.title = false ∧ fieldBlank s.text = false :=
        (validateRawSection_ok_iff s).mp ⟨g, hv⟩
      cases hr : validateRawSections rest with
      | error e =>
        have : ¬ ∃ gs, validateRawSections rest = .ok gs := by simp [hr]
        rw [ih] at this
        constructor
        · rintro ⟨gs, hgs⟩; simp at hgs
        · intro h
          exact absurd (fun r hrm => h r (List.mem_cons_of_mem s hrm)) this
      | ok gs =>
        constructor
        · intro _ r hrm
          rcases List.mem_cons.mp hrm with h | h
          · subst h; exact hs
          · exact (ih.mp ⟨_, hr⟩) r h
        · intro _; exact ⟨_, rfl⟩

open EnrichGemini in
/-- C5 (amended): the enrichment boundary validation accepts a collaborator
response iff the `sections` array is non-empty and no field of any returned
section is missing or blank after trimming — presence of the four ids
`welcome, homily, final_reflection, closing` is not checked — and any
validation failure propagates out of the stage before anything is merged
into the manifest. -/
theorem C5_enrichment_validation :
    (∀ raws, (∃ gs, gemini_validate_response raws = .ok gs) ↔
        (raws ≠ [] ∧ ∀ r ∈ raws, fieldBlank r.id = false ∧
          fieldBlank r.type = false ∧ fieldBlank r.title = false ∧
          fieldBlank r.text = false)) ∧
    (∀ hash gm (m : Manifest) raws e,
        gemini_validate_response raws = .error e →
        gemini_enrich_stage hash gm m raws = .error e) := by
  constructor
  · intro raws
    unfold gemini_validate_response
    by_cases hne : raws.isEmpty
    · simp [hne, List.isEmpty_iff.mp hne]
    · rw [if_neg hne]
      rw [validateRawSections_ok_iff]
      simp [List.isEmpty_iff] at hne
      simp [hne]
  · intro hash gm m raws e he
    unfold gemini_enrich_stage
    rw [he]

open EnrichGemini in
/-- Counterexample to C5 as stated: a response containing only `welcome`
passes validation (no check that the four ids are present), so the merge
does proceed. -/
theorem C5_enrichment_validation_counterexample :
    (gemini_validate_response welcomeOnlyResponseW).isOk = true ∧
    welcomeOnlyResponseW.map (·.id) = [some "welcome"] ∧
    (gemini_enrich_stage idHash "gemini-2.5-flash" manifestW
      welcomeOnlyResponseW).isOk = true := by
  refine ⟨by decide, by decide, ?_⟩
  have h : (∃ gs, gemini_validate_response welcomeOnlyResponseW = .ok gs) := by
    rw [C5_enrichment_validation.1]
    constructor
    · decide
    · decide
  obtain ⟨gs, hgs⟩ := h
  simp [gemini_enrich_stage, hgs, Except.isOk, Except.toBool]

open EnrichGemini in
/-- Witness for C5 (amended) at a concrete response with a blank `title`. -/
theorem C5_enrichment_validation_witness :
    gemini_enrich_stage idHash "gemini-2.5-flash" manifestW
        blankTitleResponseW =
      .error "Sección inválida en respuesta Gemini. Falta/campo vacío: title" := by
  exact C5_enrichment_validation.2 idHash "gemini-2.5-flash" manifestW
    blankTitleResponseW _ rfl

open GenerateAll in
/-- C8: before the audio stage, `ensure_tts` persists exactly the reconciled
document (every audio reference with a non-blank, no-longer-existing path is
cleared) and evaluates the stage-satisfaction predicate on that reconciled
document; the reconciled document holds no dangling audio reference, and a
dangling reference on a section with text forces the stage to run. -/
theorem C8_audio_reconciliation :
    (∀ ex m, ensure_tts ex m = (clear_missing_audio_entries ex m,
        !(all_sections_have_audio ex (clear_missing_audio_entries ex m)))) ∧
    (∀ ex m s, s ∈ (clear_missing_audio_entries ex m).sections →
        ∀ a, s.audio = some a → String.mk (stripPy a.path.data) ≠ "" →
        ex (String.mk (stripPy a.path.data)) = true) ∧
    (∀ ex m, (∃ s ∈ m.sections, isBlankL s.text = false ∧ danglingAudio ex s) →
        (ensure_tts ex m).2 = true) := by
  refine ⟨fun _ _ => rfl, ?_, ?_⟩
  · intro ex m s hs a ha hp
    simp only [clear_missing_audio_entries, List.mem_map] at hs
    obtain ⟨s0, _, rfl⟩ := hs
    unfold clearSectionAudio at ha
    cases h0 : s0.audio with
    | none =>
      rw [h0] at ha
      dsimp only at ha
      rw [h0] at ha
      exact Option.noConfusion ha
    | some a0 =>
      rw [h0] at ha
      dsimp only at ha
      by_cases hcond : String.mk (stripPy a0.path.data) ≠ "" ∧
          ex (String.mk (stripPy a0.path.data)) = false
      · rw [if_pos hcond] at ha
        simp at ha
      · rw [if_neg hcond] at ha
        have haa : a0 = a := by rw [h0] at ha; exact Option.some.inj ha
        subst haa
        cases htest : ex (String.mk (stripPy a0.path.data)) with
        | false => exact absurd ⟨hp, htest⟩ hcond
        | true => rfl
  · intro ex m ⟨s, hs, hblank, a, ha, hp, hex⟩
    have hmem : clearSectionAudio ex s ∈
        (clear_missing_audio_entries ex m).sections :=
      List.mem_map_of_mem _ hs
    have hclr : clearSectionAudio ex s = { s with audio := none } := by
      unfold clearSectionAudio
      rw [ha]
      simp only
      rw [if_pos ⟨hp, hex⟩]
    have hok : sectionAudioOk ex (clearSectionAudio ex s) = false := by
      rw [hclr]
      unfold sectionAudioOk
      simp [hblank]
    have hall : all_sections_have_audio ex (clear_missing_audio_entries ex m)
        = false := by
      unfold all_sections_have_audio
      cases hb : (clear_missing_audio_entries ex m).sections.all
          (sectionAudioOk ex) with
      | false => rfl
      | true => exact absurd (List.all_eq_true.mp hb _ hmem) (by simp [hok])
    simp [ensure_tts, hall]

open GenerateAll in
/-- Witness for C8 at a concrete manifest with a dangling audio reference
and a storage on which no file exists. -/
theorem C8_audio_reconciliation_witness :
    (ensure_tts (fun _ => false) danglingManifestW).2 = true := by
  exact C8_audio_reconciliation.2.2 (fun _ => false) danglingManifestW
    ⟨danglingSectionW, by decide, by decide, ⟨_, rfl, by decide, rfl⟩⟩

open GenerateTTS in
/-- The canonical cache path and the by-date convenience path never
coincide: after the shared assets part one continues with `/cache/`, the
other with `/by-date/`. -/
theorem cachePath_ne_dailyPath (cfg : TtsConfig) (v sid : String)
    (h : List Char) : cachePathOf cfg v h ≠ dailyPathOf cfg sid := by
  intro he
  have hd := congrArg String.data he
  simp only [cachePathOf, dailyPathOf, String.data_append, List.append_assoc]
    at hd
  have hc := List.append_cancel_left hd
  simp only [List.cons_append, List.cons.injEq] at hc
  exact absurd hc.2.1 (by decide)

open GenerateTTS in
/-- Pointwise evaluation of a file-system write. -/
theorem fsWrite_eval (fs : FS) (p : String) (b : Option (List Nat))
    (q : String) : fsWrite fs p b q = if q = p then b else fs q := rfl

open GenerateTTS in
/-- `tts_process_section` on a skipped section (blank text or missing text
hash) is the identity. -/
theorem tts_process_section_skip (hash : List Char → List Char)
    (synth : List Char → List Nat) (cfg : TtsConfig) (fs : FS) (sec : Section)
    (h : normalize_text sec.text = [] ∨ sec.text_hash = []) :
    tts_process_section hash synth cfg fs sec = (fs, sec) := by
  simp [tts_process_section, h]

open GenerateTTS in
/-- `tts_process_section` on a processed section, written without `let`s. -/
theorem tts_process_section_run (hash : List Char → List Char)
    (synth : List Char → List Nat) (cfg : TtsConfig) (fs : FS) (sec : Section)
    (h : ¬(normalize_text sec.text = [] ∨ sec.text_hash = [])) :
    tts_process_section hash synth cfg fs sec =
      (link_audio_to_date
        (if (fs (cachePathOf cfg (voiceNameFor cfg (roleFor sec.id))
              (sectionAudioHash hash cfg sec))).isSome then fs
         else fsWrite fs (cachePathOf cfg (voiceNameFor cfg (roleFor sec.id))
              (sectionAudioHash hash cfg sec))
           (some (synth (add_closing_phrase sec.id (normalize_text sec.text)))))
        (cachePathOf cfg (voiceNameFor cfg (roleFor sec.id))
          (sectionAudioHash hash cfg sec))
        (dailyPathOf cfg sec.id),
       { sec with audio := some (AudioRef.mk "gemini-tts" cfg.model
          (voiceNameFor cfg (roleFor sec.id)) (roleFor sec.id)
          cfg.style_profile_id (sectionAudioHash hash cfg sec) "audio/wav"
          24000 1 (dailyPathOf cfg sec.id)
          (cachePathOf cfg (voiceNameFor cfg (roleFor sec.id))
            (sectionAudioHash hash cfg sec)) cfg.now) }) := by
  simp [tts_process_section, h]

open GenerateTTS in
/-- C10: the by-date convenience file is created by copying the cache
artifact only when no file exists at the date/section path; existing bytes
there are never overwritten — whatever the current audio hash and cache path
are — while the section's `audio.path` is still pointed at that daily file;
and when the daily file is absent it is created with the cache artifact's
bytes. -/
theorem C10_daily_convenience_copy (hash : List Char → List Char)
    (synth : List Char → List Nat) (cfg : TtsConfig) (fs : FS) (sec : Section)
    (b : List Nat) :
    (fs (dailyPathOf cfg sec.id) = some b →
      (tts_process_section hash synth cfg fs sec).1 (dailyPathOf cfg sec.id) =
        some b) ∧
    (¬(normalize_text sec.text = [] ∨ sec.text_hash = []) →
      ∃ a, (tts_process_section hash synth cfg fs sec).2.audio = some a ∧
        a.path = dailyPathOf cfg sec.id ∧
        a.cache_path = cachePathOf cfg (voiceNameFor cfg (roleFor sec.id))
          (sectionAudioHash hash cfg sec)) ∧
    (fs (dailyPathOf cfg sec.id) = none →
      ¬(normalize_text sec.text = [] ∨ sec.text_hash = []) →
      (tts_process_section hash synth cfg fs sec).1 (dailyPathOf cfg sec.id) =
        (tts_process_section hash synth cfg fs sec).1
          (cachePathOf cfg (voiceNameFor cfg (roleFor sec.id))
            (sectionAudioHash hash cfg sec))) := by
  by_cases hskip : normalize_text sec.text = [] ∨ sec.text_hash = []
  · rw [tts_process_section_skip hash synth cfg fs sec hskip]
    exact ⟨fun h => h, fun h => absurd hskip h, fun _ h => absurd hskip h⟩
  · rw [tts_process_section_run hash synth cfg fs sec hskip]
    have hne : dailyPathOf cfg sec.id ≠
        cachePathOf cfg (voiceNameFor cfg (roleFor sec.id))
          (sectionAudioHash hash cfg sec) :=
      (cachePath_ne_dailyPath cfg _ sec.id _).symm
    have hfs1 : ∀ (w : Option (List Nat)),
        (if (fs (cachePathOf cfg (voiceNameFor cfg (roleFor sec.id))
              (sectionAudioHash hash cfg sec))).isSome then fs
         else fsWrite fs (cachePathOf cfg (voiceNameFor cfg (roleFor sec.id))
              (sectionAudioHash hash cfg sec)) w) (dailyPathOf cfg sec.id) =
          fs (dailyPathOf cfg sec.id) := by
      intro w
      split
      · rfl
      · rw [fsWrite_eval, if_neg hne]
    refine ⟨?_, ?_, ?_⟩
    · intro h
      simp only [link_audio_to_date]
      rw [hfs1, h]
      simp only [Option.isSome_some, if_true]
      rw [hfs1, h]
    · intro _
      exact ⟨_, rfl, rfl, rfl⟩
    · intro h _
      simp only [link_audio_to_date]
      rw [hfs1, h]
      simp only [Option.isSome_none, Bool.false_eq_true, if_false]
      rw [fsWrite_eval, if_pos rfl, fsWrite_eval, if_neg hne.symm]

open GenerateTTS in
/-- Witness for C10: a pre-existing daily gospel file keeps its bytes, the
manifest still points at it, and on an empty storage the daily file is
created with the cache bytes. -/
theorem C10_daily_convenience_copy_witness :
    (tts_process_section idHash synthW cfgW fsDailyOnlyW gospelSectionW).1
        (dailyPathOf cfgW gospelSectionW.id) = some [7, 7, 7] ∧
    (∃ a, (tts_process_section idHash synthW cfgW fsDailyOnlyW
          gospelSectionW).2.audio = some a ∧
        a.path = dailyPathOf cfgW gospelSectionW.id ∧
        a.cache_path = cachePathOf cfgW
          (voiceNameFor cfgW (roleFor gospelSectionW.id))
          (sectionAudioHash idHash cfgW gospelSectionW)) ∧
    (tts_process_section idHash synthW cfgW (fun _ => none)
        gospelSectionW).1 (dailyPathOf cfgW gospelSectionW.id) =
      (tts_process_section idHash synthW cfgW (fun _ => none)
        gospelSectionW).1 (cachePathOf cfgW
          (voiceNameFor cfgW (roleFor gospelSectionW.id))
          (sectionAudioHash idHash cfgW gospelSectionW)) :=
  ⟨(C10_daily_convenience_copy idHash synthW cfgW fsDailyOnlyW gospelSectionW
      [7, 7, 7]).1 (by decide),
   (C10_daily_convenience_copy idHash synthW cfgW fsDailyOnlyW gospelSectionW
      []).2.1 (by decide),
   (C10_daily_convenience_copy idHash synthW cfgW (fun _ => none)
      gospelSectionW []).2.2 rfl (by decide)⟩

/-- `isPrefixL` is reflexive. -/
theorem isPrefixL_self (l : List Char) : isPrefixL l l = true := by
  induction l with
  | nil => rfl
  | cons c rest ih => simp [isPrefixL, ih]

/-- A list always ends with its own suffix. -/
theorem endsWithL_append (a b : List Char) : endsWithL (a ++ b) b = true := by
  unfold endsWithL
  rw [List.length_append]
  have h : a.length + b.length - b.length = a.length := by omega
  rw [h, List.drop_left]
  exact isPrefixL_self b

/-- `rstrip()` does not touch a list ending in a non-whitespace character. -/
theorem stripTrail_append_nonWS (xs : List Char) (c : Char)
    (hc : pyWS c = false) : stripTrail (xs ++ [c]) = xs ++ [c] := by
  simp [stripTrail, List.dropWhile_cons, hc]

/-- `rstrip(".")` removes a final period. -/
theorem rstripDots_append_dot (xs : List Char) :
    rstripDots (xs ++ ['.']) = rstripDots xs := by
  simp [rstripDots, List.dropWhile_cons]

/-- `rstrip(".")` does not touch `A ++ B` when it does not touch the
non-empty `B`. -/
theorem rstripDots_append_fixed (A B : List Char) (hB : rstripDots B = B)
    (hne : B ≠ []) : rstripDots (A ++ B) = A ++ B := by
  obtain ⟨c, r, hrev⟩ : ∃ c r, B.reverse = c :: r := by
    cases hBr : B.reverse with
    | nil =>
      exact absurd (by simpa using congrArg List.reverse hBr) hne
    | cons c r => exact ⟨c, r, rfl⟩
  have hB2 : B = r.reverse ++ [c] := by
    have := congrArg List.reverse hrev
    simpa using this
  have hcdot : (c == '.') = false := by
    by_contra hcd
    simp only [Bool.not_eq_false, beq_iff_eq] at hcd
    subst hcd
    have h1 := congrArg List.reverse hB
    rw [rstripDots] at h1
    simp only [List.reverse_reverse] at h1
    rw [hrev, List.dropWhile_cons] at h1
    simp only [beq_self_eq_true, if_true] at h1
    have h2 := congrArg List.length h1
    have h3 : (r.dropWhile (· == '.')).length ≤ r.length :=
      List.Sublist.length_le (List.dropWhile_sublist _)
    simp only [List.length_cons] at h2
    omega
  rw [rstripDots, List.reverse_append, hrev, List.cons_append,
    List.dropWhile_cons, hcdot]
  simp only [Bool.false_eq_true, if_false]
  rw [List.reverse_cons, List.reverse_append, List.reverse_reverse,
    List.append_assoc]
  rw [hB2]

open GenerateTTS in
/-- The configured closing phrases. -/
theorem closingPhraseFor_cases {sid : String} {p : List Char}
    (h : closingPhraseFor sid = some p) :
    p = strL "Palabra de Dios." ∨ p = strL "Palabra del Señor." := by
  unfold closingPhraseFor at h
  split_ifs at h <;> simp_all

open GenerateTTS in
/-- Applying `add_closing_phrase` to a text that already carries the
appended phrase leaves it unchanged: the duplicate guard fires. -/
theorem add_closing_second_guard (phrase pstem t : List Char)
    (hsplit : phrase = pstem ++ ['.'])
    (hfix : rstripDots (lowerL pstem) = lowerL pstem)
    (hnonempty : lowerL pstem ≠ []) :
    ∀ sid, closingPhraseFor sid = some phrase →
      add_closing_phrase sid (t ++ '\n' :: '\n' :: phrase) =
        t ++ '\n' :: '\n' :: phrase := by
  intro sid hp
  have e3 : ∀ a b : List Char, lowerL (a ++ b) = lowerL a ++ lowerL b :=
    fun a b => List.map_append _ a b
  have e1 : lowerL ['\n', '\n'] = ['\n', '\n'] := by decide
  have e2 : lowerL ['.'] = ['.'] := by decide
  have hy : t ++ '\n' :: '\n' :: phrase = (t ++ '\n' :: '\n' :: pstem) ++ ['.'] := by
    rw [hsplit]; simp
  have hsplit2 : t ++ '\n' :: '\n' :: phrase =
      (t ++ ['\n', '\n']) ++ (pstem ++ ['.']) := by
    rw [hsplit]; simp
  have hstrip : stripTrail (t ++ '\n' :: '\n' :: phrase) =
      t ++ '\n' :: '\n' :: phrase := by
    rw [hy]; exact stripTrail_append_nonWS _ _ (by decide)
  have hlowphrase : lowerL phrase = lowerL pstem ++ ['.'] := by
    rw [hsplit, e3, e2]
  have hplow : rstripDots (lowerL phrase) = lowerL pstem := by
    rw [hlowphrase, rstripDots_append_dot, hfix]
  have hlowy : lowerL (t ++ '\n' :: '\n' :: phrase) =
      (lowerL t ++ ['\n', '\n']) ++ (lowerL pstem ++ ['.']) := by
    rw [hsplit2, e3, e3, e3, e1, e2]
  have htlow : rstripDots (lowerL (t ++ '\n' :: '\n' :: phrase)) =
      (lowerL t ++ ['\n', '\n']) ++ lowerL pstem := by
    rw [hlowy, ← List.append_assoc]
    rw [rstripDots_append_dot]
    rw [List.append_assoc]
    exact rstripDots_append_fixed _ _
      (rstripDots_append_fixed ['\n', '\n'] _ hfix hnonempty)
      (by simp)
  unfold add_closing_phrase
  rw [hp]
  simp only [hstrip, htlow, hplow]
  rw [if_pos (endsWithL_append _ _)]

open GenerateTTS in
/-- C9 (amended): the closing phrase is appended only to the text handed to
synthesis — the section's stored `text` is never mutated; the duplicate
guard compares case-insensitive suffixes with trailing *periods* (not all
punctuation) stripped; `add_closing_phrase` is idempotent; and for section
ids without a configured phrase the text is returned unchanged. -/
theorem C9_closing_phrase :
    (∀ sid text, add_closing_phrase sid (add_closing_phrase sid text) =
        add_closing_phrase sid text) ∧
    (∀ sid text, closingPhraseFor sid = none →
        add_closing_phrase sid text = text) ∧
    (∀ hash synth cfg fs (sec : Section),
        (tts_process_section hash synth cfg fs sec).2.text = sec.text) ∧
    (∀ hash synth cfg fs (sec : Section),
        ¬(normalize_text sec.text = [] ∨ sec.text_hash = []) →
        fs (cachePathOf cfg (voiceNameFor cfg (roleFor sec.id))
          (sectionAudioHash hash cfg sec)) = none →
        (tts_process_section hash synth cfg fs sec).1
            (cachePathOf cfg (voiceNameFor cfg (roleFor sec.id))
              (sectionAudioHash hash cfg sec)) =
          some (synth (add_closing_phrase sec.id (normalize_text sec.text)))) := by
  refine ⟨?_, ?_, ?_, ?_⟩
  · intro sid text
    cases hp : closingPhraseFor sid with
    | none =>
      have h1 : ∀ u, add_closing_phrase sid u = u := by
        intro u; unfold add_closing_phrase; rw [hp]
      rw [h1, h1]
    | some phrase =>
      have h1 : ∀ u, add_closing_phrase sid u =
          if endsWithL (rstripDots (lowerL (stripTrail u)))
              (rstripDots (lowerL phrase)) then u
          else stripTrail u ++ '\n' :: '\n' :: phrase := by
        intro u; unfold add_closing_phrase; rw [hp]
      by_cases hg : endsWithL (rstripDots (lowerL (stripTrail text)))
          (rstripDots (lowerL phrase)) = true
      · rw [h1 text, if_pos hg, h1 text, if_pos hg]
      · rw [h1 text, if_neg hg]
        rcases closingPhraseFor_cases hp with h | h
        · subst h
          exact add_closing_second_guard _ (strL "Palabra de Dios") _
            (by decide) (by decide) (by decide) sid hp
        · subst h
          exact add_closing_second_guard _ (strL "Palabra del Señor") _
            (by decide) (by decide) (by decide) sid hp
  · intro sid text hp
    unfold add_closing_phrase
    rw [hp]
  · intro hash synth cfg fs sec
    by_cases hskip : normalize_text sec.text = [] ∨ sec.text_hash = []
    · rw [tts_process_section_skip hash synth cfg fs sec hskip]
    · rw [tts_process_section_run hash synth cfg fs sec hskip]
  · intro hash synth cfg fs sec hskip hmiss
    rw [tts_process_section_run hash synth cfg fs sec hskip]
    have hne : dailyPathOf cfg sec.id ≠
        cachePathOf cfg (voiceNameFor cfg (roleFor sec.id))
          (sectionAudioHash hash cfg sec) :=
      (cachePath_ne_dailyPath cfg _ sec.id _).symm
    simp only [link_audio_to_date]
    split
    · next h => rw [hmiss] at h; simp at h
    · rw [fsWrite_eval, if_neg hne]
      split
      · rw [fsWrite_eval, if_pos rfl]
      · rw [fsWrite_eval, if_neg (Ne.symm hne), fsWrite_eval, if_pos rfl]

open GenerateTTS in
/-- Counterexample to C9 as stated: the guard strips only trailing periods,
not all punctuation.  On a text already ending with the phrase plus `!`, the
punctuation-stripped suffixes match, yet the function appends the phrase
again instead of returning the text unchanged. -/
theorem C9_closing_phrase_counterexample :
    endsWithL (rstripPunct (lowerL (stripTrail bangTextW)))
      (rstripPunct (lowerL (strL "Palabra de Dios."))) = true ∧
    add_closing_phrase "first_reading" bangTextW =
      bangTextW ++ '\n' :: '\n' :: strL "Palabra de Dios." ∧
    add_closing_phrase "first_reading" bangTextW ≠ bangTextW := by
  refine ⟨by decide, by decide, by decide⟩

open GenerateTTS in
/-- Witness for C9 at concrete inputs. -/
theorem C9_closing_phrase_witness :
    add_closing_phrase "gospel" (add_closing_phrase "gospel"
        (strL "En aquel tiempo...")) =
      add_closing_phrase "gospel" (strL "En aquel tiempo...") ∧
    add_closing_phrase "homily" (strL "Hermanos.") = strL "Hermanos." ∧
    (tts_process_section idHash synthW cfgW fsDailyOnlyW gospelSectionW).2.text
      = gospelSectionW.text ∧
    (tts_process_section idHash synthW cfgW (fun _ => none)
        gospelSectionW).1 (cachePathOf cfgW
          (voiceNameFor cfgW (roleFor gospelSectionW.id))
          (sectionAudioHash idHash cfgW gospelSectionW)) =
      some (synthW (add_closing_phrase gospelSectionW.id
        (normalize_text gospelSectionW.text))) :=
  ⟨C9_closing_phrase.1 "gospel" (strL "En aquel tiempo..."),
   C9_closing_phrase.2.1 "homily" (strL "Hermanos.") rfl,
   C9_closing_phrase.2.2.1 idHash synthW cfgW fsDailyOnlyW gospelSectionW,
   C9_closing_phrase.2.2.2 idHash synthW cfgW (fun _ => none) gospelSectionW
     (by decide) rfl⟩

/-! ### Normalization lemmas (for C7) -/

/-- Unfolding equation for `hasDoubleHoriz` on two-or-more lists. -/
theorem hdh_cons2 (a b : Char) (r : List Char) :
    hasDoubleHoriz (a :: b :: r) =
      ((isHoriz a && isHoriz b) || hasDoubleHoriz (b :: r)) := rfl

/-- Unfolding equation for `hasTripleNL` on three-or-more lists. -/
theorem htnl_cons3 (a b c : Char) (r : List Char) :
    hasTripleNL (a :: b :: c :: r) =
      ((a == '\n' && b == '\n' && c == '\n') || hasTripleNL (b :: c :: r)) := rfl

/-- A tail of a double-horizontal-free list is double-horizontal-free. -/
theorem hdh_tail (c : Char) (l : List Char) (h : hasDoubleHoriz (c :: l) = false) :
    hasDoubleHoriz l = false := by
  cases l with
  | nil => rfl
  | cons b r =>
    rw [hdh_cons2] at h
    exact (Bool.or_eq_false_iff.mp h).2

/-- A tail of a triple-newline-free list is triple-newline-free. -/
theorem htnl_tail (c : Char) (l : List Char) (h : hasTripleNL (c :: l) = false) :
    hasTripleNL l = false := by
  cases l with
  | nil => rfl
  | cons b r =>
    cases r with
    | nil => rfl
    | cons d r' =>
      rw [htnl_cons3] at h
      exact (Bool.or_eq_false_iff.mp h).2

/-- Extending a double-horizontal-free list on the left stays free when the
new head cannot pair with the old head. -/
theorem hdh_cons_free (c : Char) (l : List Char)
    (hl : hasDoubleHoriz l = false)
    (h : isHoriz c = false ∨ ∀ d, l.head? = some d → isHoriz d = false) :
    hasDoubleHoriz (c :: l) = false := by
  cases l with
  | nil => rfl
  | cons d r =>
    rw [hdh_cons2, hl, Bool.or_false]
    rcases h with h | h
    · rw [h, Bool.false_and]
    · rw [h d rfl, Bool.and_false]

/-- Extending a triple-newline-free list on the left stays free when the new
head is not a newline or the list starts with at most one newline. -/
theorem htnl_cons_free (c : Char) (l : List Char)
    (hl : hasTripleNL l = false)
    (h : (c == '\n') = false ∨ (l.takeWhile (fun x => x == '\n')).length ≤ 1) :
    hasTripleNL (c :: l) = false := by
  cases l with
  | nil => rfl
  | cons b r =>
    cases r with
    | nil => rfl
    | cons d r' =>
      rw [htnl_cons3, hl, Bool.or_false]
      rcases h with h | h
      · simp [h]
      · cases hb : (b == '\n') with
        | false => simp [hb]
        | true =>
          cases hd : (d == '\n') with
          | false => simp [hd]
          | true =>
            exfalso
            simp [List.takeWhile_cons, hb, hd] at h

/-- The left part of a double-horizontal-free concatenation is free. -/
theorem hdh_append (x y : List Char) (h : hasDoubleHoriz (x ++ y) = false) :
    hasDoubleHoriz x = false := by
  induction x with
  | nil => rfl
  | cons a x' ih =>
    rw [List.cons_append] at h
    have htail := ih (hdh_tail _ _ h)
    cases x' with
    | nil => rfl
    | cons b x'' =>
      rw [hdh_cons2]
      rw [List.cons_append, hdh_cons2] at h
      rw [(Bool.or_eq_false_iff.mp h).1, htail]
      rfl

/-- The left part of a triple-newline-free concatenation is free. -/
theorem htnl_append (x y : List Char) (h : hasTripleNL (x ++ y) = false) :
    hasTripleNL x = false := by
  induction x with
  | nil => rfl
  | cons a x' ih =>
    rw [List.cons_append] at h
    have htail := ih (htnl_tail _ _ h)
    cases x' with
    | nil => rfl
    | cons b x'' =>
      cases x'' with
      | nil => rfl
      | cons c r =>
        rw [htnl_cons3]
        rw [List.cons_append, List.cons_append, htnl_cons3] at h
        rw [(Bool.or_eq_false_iff.mp h).1, htail]
        rfl

/-- Characters of `collapseHorizAux` output: a non-horizontal input
character, or the space replacing a whitespace run. -/
theorem collapseHorizAux_mem (l : List Char) :
    ∀ b c, c ∈ collapseHorizAux b l → (c ∈ l ∧ isHoriz c = false) ∨ c = ' ' := by
  induction l with
  | nil => intro b c h; simp [collapseHorizAux] at h
  | cons a rest ih =>
    intro b c h
    unfold collapseHorizAux at h
    by_cases ha : isHoriz a = true
    · rw [if_pos ha] at h
      cases b with
      | true =>
        simp only [if_true] at h
        rcases ih true c h with ⟨hm, hh⟩ | hsp
        · exact Or.inl ⟨List.mem_cons_of_mem _ hm, hh⟩
        · exact Or.inr hsp
      | false =>
        simp only [Bool.false_eq_true, if_false, List.mem_cons] at h
        rcases h with h | h
        · exact Or.inr h
        · rcases ih true c h with ⟨hm, hh⟩ | hsp
          · exact Or.inl ⟨List.mem_cons_of_mem _ hm, hh⟩
          · exact Or.inr hsp
    · rw [if_neg ha] at h
      rcases List.mem_cons.mp h with h | h
      · subst h
        exact Or.inl ⟨List.mem_cons_self _ _, by simpa using ha⟩
      · rcases ih false c h with ⟨hm, hh⟩ | hsp
        · exact Or.inl ⟨List.mem_cons_of_mem _ hm, hh⟩
        · exact Or.inr hsp

/-- Characters of `squeezeNLAux` output come from the input. -/
theorem squeezeNLAux_mem (l : List Char) :
    ∀ run c, c ∈ squeezeNLAux run l → c ∈ l := by
  induction l with
  | nil => intro run c h; simp [squeezeNLAux] at h
  | cons a rest ih =>
    intro run c h
    unfold squeezeNLAux at h
    by_cases ha : a = '\n'
    · rw [if_pos ha] at h
      by_cases hr : 2 ≤ run
      · rw [if_pos hr] at h
        exact List.mem_cons_of_mem _ (ih _ _ h)
      · rw [if_neg hr] at h
        rcases List.mem_cons.mp h with h | h
        · subst h; rw [ha]; exact List.mem_cons_self _ _
        · exact List.mem_cons_of_mem _ (ih _ _ h)
    · rw [if_neg ha] at h
      rcases List.mem_cons.mp h with h | h
      · subst h; exact List.mem_cons_self _ _
      · exact List.mem_cons_of_mem _ (ih _ _ h)

/-- Characters survive `stripPy`. -/
theorem stripPy_mem (l : List Char) (c : Char) (h : c ∈ stripPy l) : c ∈ l := by
  unfold stripPy stripTrail stripLead at h
  rw [List.mem_reverse] at h
  have h1 := List.Sublist.mem h (List.dropWhile_sublist _)
  rw [List.mem_reverse] at h1
  exact List.Sublist.mem h1 (List.dropWhile_sublist _)

/-- Branch equation of `collapseHorizAux`: whitespace starting a run. -/
theorem collapseHorizAux_eq_startRun {a : Char} (rest : List Char)
    (ha : isHoriz a = true) :
    collapseHorizAux false (a :: rest) = ' ' :: collapseHorizAux true rest := by
  simp [collapseHorizAux, ha]

/-- Branch equation of `collapseHorizAux`: whitespace inside a run. -/
theorem collapseHorizAux_eq_inRun {a : Char} (rest : List Char)
    (ha : isHoriz a = true) :
    collapseHorizAux true (a :: rest) = collapseHorizAux true rest := by
  simp [collapseHorizAux, ha]

/-- Branch equation of `collapseHorizAux`: non-whitespace character. -/
theorem collapseHorizAux_eq_other {a : Char} (b : Bool) (rest : List Char)
    (ha : isHoriz a = false) :
    collapseHorizAux b (a :: rest) = a :: collapseHorizAux false rest := by
  simp [collapseHorizAux, ha]

/-- Branch equation of `squeezeNLAux`: suppressed newline. -/
theorem squeezeNLAux_eq_skip {a : Char} {run : Nat} (rest : List Char)
    (ha : a = '\n') (hr : 2 ≤ run) :
    squeezeNLAux run (a :: rest) = squeezeNLAux run rest := by
  simp [squeezeNLAux, ha, hr]

/-- Branch equation of `squeezeNLAux`: emitted newline. -/
theorem squeezeNLAux_eq_nl {a : Char} {run : Nat} (rest : List Char)
    (ha : a = '\n') (hr : ¬ 2 ≤ run) :
    squeezeNLAux run (a :: rest) = '\n' :: squeezeNLAux (run + 1) rest := by
  simp [squeezeNLAux, ha, hr]

/-- Branch equation of `squeezeNLAux`: other character. -/
theorem squeezeNLAux_eq_other {a : Char} {run : Nat} (rest : List Char)
    (ha : ¬ a = '\n') :
    squeezeNLAux run (a :: rest) = a :: squeezeNLAux 0 rest := by
  simp [squeezeNLAux, ha]

/-- The collapse pass leaves no two adjacent horizontal-whitespace
characters, and after a run its output starts with a non-horizontal
character. -/
theorem collapseHorizAux_free (l : List Char) :
    hasDoubleHoriz (collapseHorizAux false l) = false ∧
    hasDoubleHoriz (collapseHorizAux true l) = false ∧
    (∀ c, (collapseHorizAux true l).head? = some c → isHoriz c = false) := by
  induction l with
  | nil =>
    refine ⟨rfl, rfl, ?_⟩
    intro c h
    simp [collapseHorizAux] at h
  | cons a rest ih =>
    obtain ⟨ihF, ihT, ihTh⟩ := ih
    by_cases ha : isHoriz a = true
    · refine ⟨?_, ?_, ?_⟩
      · rw [collapseHorizAux_eq_startRun rest ha]
        exact hdh_cons_free _ _ ihT (Or.inr ihTh)
      · rw [collapseHorizAux_eq_inRun rest ha]
        exact ihT
      · rw [collapseHorizAux_eq_inRun rest ha]
        exact ihTh
    · have ha' : isHoriz a = false := by simpa using ha
      refine ⟨?_, ?_, ?_⟩
      · rw [collapseHorizAux_eq_other false rest ha']
        exact hdh_cons_free _ _ ihF (Or.inl ha')
      · rw [collapseHorizAux_eq_other true rest ha']
        exact hdh_cons_free _ _ ihF (Or.inl ha')
      · rw [collapseHorizAux_eq_other true rest ha']
        intro c h
        simp only [List.head?_cons, Option.some.injEq] at h
        subst h
        exact ha'

/-- `squeezeNLAux 0` keeps the head character. -/
theorem squeezeNLAux_zero_head (l : List Char) :
    (squeezeNLAux 0 l).head? = l.head? := by
  cases l with
  | nil => rfl
  | cons a rest =>
    by_cases ha : a = '\n'
    · rw [squeezeNLAux_eq_nl rest ha (by omega), ha]
      rfl
    · rw [squeezeNLAux_eq_other rest ha]
      rfl

/-- The newline squeeze preserves freedom from adjacent horizontal
whitespace. -/
theorem squeezeNLAux_hdh (l : List Char) :
    ∀ run, hasDoubleHoriz l = false →
      hasDoubleHoriz (squeezeNLAux run l) = false := by
  induction l with
  | nil => intro run _; rfl
  | cons a rest ih =>
    intro run h
    have htail : hasDoubleHoriz rest = false := hdh_tail _ _ h
    by_cases ha : a = '\n'
    · by_cases hr : 2 ≤ run
      · rw [squeezeNLAux_eq_skip rest ha hr]
        exact ih run htail
      · rw [squeezeNLAux_eq_nl rest ha hr]
        refine hdh_cons_free _ _ (ih _ htail) (Or.inl ?_)
        decide
    · rw [squeezeNLAux_eq_other rest ha]
      by_cases hah : isHoriz a = true
      · refine hdh_cons_free _ _ (ih _ htail) (Or.inr ?_)
        intro d hd
        rw [squeezeNLAux_zero_head] at hd
        cases rest with
        | nil => simp at hd
        | cons b r =>
          simp only [List.head?_cons, Option.some.injEq] at hd
          subst hd
          rw [hdh_cons2] at h
          have := (Bool.or_eq_false_iff.mp h).1
          rw [hah] at this
          simpa using this
      · exact hdh_cons_free _ _ (ih _ htail) (Or.inl (by simpa using hah))

/-- The newline squeeze leaves no three consecutive newlines, and its output
starts with at most `2 - min run 2` newlines. -/
theorem squeezeNLAux_htnl (l : List Char) :
    ∀ run, hasTripleNL (squeezeNLAux run l) = false ∧
      (List.takeWhile (fun c => c == '\n') (squeezeNLAux run l)).length ≤
        2 - min run 2 := by
  induction l with
  | nil => intro run; exact ⟨rfl, by simp [squeezeNLAux]⟩
  | cons a rest ih =>
    intro run
    by_cases ha : a = '\n'
    · by_cases hr : 2 ≤ run
      · rw [squeezeNLAux_eq_skip rest ha hr]
        obtain ⟨h1, h2⟩ := ih run
        exact ⟨h1, h2⟩
      · rw [squeezeNLAux_eq_nl rest ha hr]
        obtain ⟨h1, h2⟩ := ih (run + 1)
        constructor
        · refine htnl_cons_free _ _ h1 (Or.inr ?_)
          omega
        · rw [List.takeWhile_cons]
          simp only [beq_self_eq_true, if_true, List.length_cons]
          omega
    · rw [squeezeNLAux_eq_other rest ha]
      obtain ⟨h1, _⟩ := ih 0
      constructor
      · exact htnl_cons_free _ _ h1 (Or.inl (by simp [ha]))
      · rw [List.takeWhile_cons]
        simp [ha]

/-- `collapseHorizAux false` maps non-empty input to non-empty output. -/
theorem collapseHorizAux_false_ne_nil (l : List Char) (h : l ≠ []) :
    collapseHorizAux false l ≠ [] := by
  cases l with
  | nil => exact absurd rfl h
  | cons a rest =>
    by_cases ha : isHoriz a = true
    · rw [collapseHorizAux_eq_startRun rest ha]
      exact List.cons_ne_nil _ _
    · rw [collapseHorizAux_eq_other false rest (by simpa using ha)]
      exact List.cons_ne_nil _ _

/-- If `collapseHorizAux true` erased everything, all input was horizontal
whitespace. -/
theorem collapseHorizAux_true_nil (l : List Char) :
    collapseHorizAux true l = [] → ∀ c ∈ l, isHoriz c = true := by
  induction l with
  | nil => intro _ c hc; simp at hc
  | cons a rest ih =>
    intro h c hc
    by_cases ha : isHoriz a = true
    · rw [collapseHorizAux_eq_inRun rest ha] at h
      rcases List.mem_cons.mp hc with hc | hc
      · subst hc; exact ha
      · exact ih h c hc
    · rw [collapseHorizAux_eq_other true rest (by simpa using ha)] at h
      exact absurd h (List.cons_ne_nil _ _)

/-- If `squeezeNLAux` erased everything, all input was newlines. -/
theorem squeezeNLAux_nil (l : List Char) :
    ∀ run, squeezeNLAux run l = [] → ∀ c ∈ l, c = '\n' := by
  induction l with
  | nil => intro _ _ c hc; simp at hc
  | cons a rest ih =>
    intro run h c hc
    by_cases ha : a = '\n'
    · by_cases hr : 2 ≤ run
      · rw [squeezeNLAux_eq_skip rest ha hr] at h
        rcases List.mem_cons.mp hc with hc | hc
        · subst hc; exact ha
        · exact ih run h c hc
      · rw [squeezeNLAux_eq_nl rest ha hr] at h
        exact absurd h (List.cons_ne_nil _ _)
    · rw [squeezeNLAux_eq_other rest ha] at h
      exact absurd h (List.cons_ne_nil _ _)

/-- `squeezeNLAux 0` maps non-empty input to non-empty output. -/
theorem squeezeNLAux_zero_ne_nil (l : List Char) (h : l ≠ []) :
    squeezeNLAux 0 l ≠ [] := by
  cases l with
  | nil => exact absurd rfl h
  | cons a rest =>
    by_cases ha : a = '\n'
    · rw [squeezeNLAux_eq_nl rest ha (by omega)]
      exact List.cons_ne_nil _ _
    · rw [squeezeNLAux_eq_other rest ha]
      exact List.cons_ne_nil _ _

/-- Head of an append with non-empty left part. -/
theorem head?_append_left {α : Type} (A B : List α) (h : A ≠ []) :
    (A ++ B).head? = A.head? := by
  cases A with
  | nil => exact absurd rfl h
  | cons a r => rfl

/-- Dropping the last element of a two-or-more-element list does not change
the final character seen through `headNonWS ∘ reverse`. -/
theorem headNonWS_reverse_cons (c : Char) (X : List Char) (h : X ≠ []) :
    headNonWS ((c :: X).reverse) = headNonWS X.reverse := by
  unfold headNonWS
  rw [List.reverse_cons, head?_append_left _ _ (by simpa using h)]

/-- Horizontal whitespace is Python whitespace. -/
theorem isHoriz_pyWS (c : Char) (h : isHoriz c = true) : pyWS c = true := by
  unfold isHoriz at h
  rcases Bool.or_eq_true_iff.mp h with h | h <;> simp [pyWS, h]

/-- The collapse pass preserves a non-whitespace final character. -/
theorem collapseHorizAux_last (l : List Char) :
    ∀ b, headNonWS l.reverse = true →
      headNonWS (collapseHorizAux b l).reverse = true := by
  induction l with
  | nil => intro b _; cases b <;> rfl
  | cons a rest ih =>
    intro b h
    by_cases hrest : rest = []
    · subst hrest
      have hws : pyWS a = false := by
        unfold headNonWS at h
        simpa using h
      have ha : isHoriz a = false := by
        cases hh : isHoriz a with
        | false => rfl
        | true => rw [isHoriz_pyWS a hh] at hws; exact absurd hws (by simp)
      rw [collapseHorizAux_eq_other b [] ha]
      exact h
    · have h' : headNonWS rest.reverse = true := by
        rw [headNonWS_reverse_cons a rest hrest] at h
        exact h
      have hXne : collapseHorizAux true rest ≠ [] := by
        intro hnil
        have hall := collapseHorizAux_true_nil rest hnil
        obtain ⟨d, r, hd⟩ : ∃ d r, rest.reverse = d :: r := by
          cases hx : rest.reverse with
          | nil => exact absurd (by simpa using congrArg List.reverse hx) hrest
          | cons d r => exact ⟨d, r, rfl⟩
        have hdws : pyWS d = false := by
          unfold headNonWS at h'
          rw [hd] at h'
          simpa using h'
        have hdm : d ∈ rest := by
          rw [← List.mem_reverse, hd]
          exact List.mem_cons_self _ _
        rw [isHoriz_pyWS d (hall d hdm)] at hdws
        exact absurd hdws (by simp)
      by_cases ha : isHoriz a = true
      · cases b with
        | true =>
          rw [collapseHorizAux_eq_inRun rest ha]
          exact ih true h'
        | false =>
          rw [collapseHorizAux_eq_startRun rest ha]
          rw [headNonWS_reverse_cons _ _ hXne]
          exact ih true h'
      · rw [collapseHorizAux_eq_other b rest (by simpa using ha)]
        rw [headNonWS_reverse_cons _ _
          (collapseHorizAux_false_ne_nil rest hrest)]
        exact ih false h'

/-- The newline squeeze preserves a non-whitespace final character. -/
theorem squeezeNLAux_last (l : List Char) :
    ∀ run, headNonWS l.reverse = true →
      headNonWS (squeezeNLAux run l).reverse = true := by
  induction l with
  | nil => intro run _; rfl
  | cons a rest ih =>
    intro run h
    by_cases hrest : rest = []
    · subst hrest
      have hws : pyWS a = false := by
        unfold headNonWS at h
        simpa using h
      have ha : ¬ a = '\n' := by
        intro hh
        subst hh
        simp [pyWS] at hws
      rw [squeezeNLAux_eq_other [] ha]
      exact h
    · have h' : headNonWS rest.reverse = true := by
        rw [headNonWS_reverse_cons a rest hrest] at h
        exact h
      obtain ⟨d, r, hd⟩ : ∃ d r, rest.reverse = d :: r := by
        cases hx : rest.reverse with
        | nil => exact absurd (by simpa using congrArg List.reverse hx) hrest
        | cons d r => exact ⟨d, r, rfl⟩
      have hdws : pyWS d = false := by
        unfold headNonWS at h'
        rw [hd] at h'
        simpa using h'
      by_cases ha : a = '\n'
      · by_cases hr : 2 ≤ run
        · rw [squeezeNLAux_eq_skip rest ha hr]
          exact ih run h'
        · rw [squeezeNLAux_eq_nl rest ha hr]
          have hXne : squeezeNLAux (run + 1) rest ≠ [] := by
            intro hnil
            have hall := squeezeNLAux_nil rest (run + 1) hnil
            have hdm : d ∈ rest := by
              rw [← List.mem_reverse, hd]
              exact List.mem_cons_self _ _
            rw [hall d hdm] at hdws
            simp [pyWS] at hdws
          rw [headNonWS_reverse_cons _ _ hXne]
          exact ih (run + 1) h'
      · rw [squeezeNLAux_eq_other rest ha]
        rw [headNonWS_reverse_cons _ _ (squeezeNLAux_zero_ne_nil rest hrest)]
        exact ih 0 h'

/-- `dropWhile` preserves freedom from adjacent horizontal whitespace. -/
theorem hdh_dropWhile (p : Char → Bool) (l : List Char)
    (h : hasDoubleHoriz l = false) : hasDoubleHoriz (l.dropWhile p) = false := by
  induction l with
  | nil => rfl
  | cons a rest ih =>
    rw [List.dropWhile_cons]
    split
    · exact ih (hdh_tail _ _ h)
    · exact h

/-- `dropWhile` preserves freedom from triple newlines. -/
theorem htnl_dropWhile (p : Char → Bool) (l : List Char)
    (h : hasTripleNL l = false) : hasTripleNL (l.dropWhile p) = false := by
  induction l with
  | nil => rfl
  | cons a rest ih =>
    rw [List.dropWhile_cons]
    split
    · exact ih (htnl_tail _ _ h)
    · exact h

/-- A list is its right-stripped part followed by the stripped whitespace. -/
theorem stripTrail_decomp (l : List Char) : ∃ j, l = stripTrail l ++ j := by
  refine ⟨(l.reverse.takeWhile pyWS).reverse, ?_⟩
  unfold stripTrail
  conv_lhs => rw [← List.reverse_reverse l,
    ← List.takeWhile_append_dropWhile (p := pyWS) (l := l.reverse)]
  rw [List.reverse_append]

/-- `stripTrail` preserves freedom from adjacent horizontal whitespace. -/
theorem hdh_stripTrail (l : List Char) (h : hasDoubleHoriz l = false) :
    hasDoubleHoriz (stripTrail l) = false := by
  obtain ⟨j, hj⟩ := stripTrail_decomp l
  apply hdh_append _ j
  rw [← hj]
  exact h

/-- `stripTrail` preserves freedom from triple newlines. -/
theorem htnl_stripTrail (l : List Char) (h : hasTripleNL l = false) :
    hasTripleNL (stripTrail l) = false := by
  obtain ⟨j, hj⟩ := stripTrail_decomp l
  apply htnl_append _ j
  rw [← hj]
  exact h

/-- `stripPy` preserves freedom from adjacent horizontal whitespace. -/
theorem hdh_stripPy (l : List Char) (h : hasDoubleHoriz l = false) :
    hasDoubleHoriz (stripPy l) = false :=
  hdh_stripTrail _ (hdh_dropWhile _ _ h)

/-- `stripPy` preserves freedom from triple newlines. -/
theorem htnl_stripPy (l : List Char) (h : hasTripleNL l = false) :
    hasTripleNL (stripPy l) = false :=
  htnl_stripTrail _ (htnl_dropWhile _ _ h)

/-- The head surviving a `dropWhile` does not satisfy the predicate. -/
theorem head?_dropWhile (p : Char → Bool) (l : List Char) :
    ∀ d, (l.dropWhile p).head? = some d → p d = false := by
  induction l with
  | nil => intro d h; simp at h
  | cons a rest ih =>
    intro d h
    rw [List.dropWhile_cons] at h
    split at h
    · exact ih d h
    · next hpa =>
      simp only [List.head?_cons, Option.some.injEq] at h
      subst h
      cases hpa2 : p a with
      | false => rfl
      | true => exact absurd hpa2 hpa

/-- `headNonWS` only looks at the head. -/
theorem headNonWS_congr {A B : List Char} (h : A.head? = B.head?) :
    headNonWS A = headNonWS B := by
  unfold headNonWS
  rw [h]

/-- The output of `dropWhile pyWS` starts with non-whitespace (if at all). -/
theorem headNonWS_dropWhile (l : List Char) :
    headNonWS (l.dropWhile pyWS) = true := by
  cases hh : (l.dropWhile pyWS).head? with
  | none => unfold headNonWS; rw [hh]
  | some d =>
    unfold headNonWS
    rw [hh]
    dsimp only
    rw [head?_dropWhile pyWS l d hh]
    rfl

/-- A fully stripped list has no leading and no trailing whitespace. -/
theorem noLeadTrailWS_stripPy (l : List Char) :
    noLeadTrailWS (stripPy l) = true := by
  unfold noLeadTrailWS
  have h2 : headNonWS (stripPy l).reverse = true := by
    unfold stripPy stripTrail
    rw [List.reverse_reverse]
    exact headNonWS_dropWhile _
  have h1 : headNonWS (stripPy l) = true := by
    by_cases hst : stripPy l = []
    · rw [hst]; rfl
    · obtain ⟨j, hj⟩ := stripTrail_decomp (stripLead l)
      have hh : (stripPy l).head? = (stripLead l).head? := by
        conv_rhs => rw [hj]
        exact (head?_append_left _ _ hst).symm
      rw [headNonWS_congr hh]
      exact headNonWS_dropWhile l
  rw [h1, h2]
  rfl

/-- Non-whitespace head survives the collapse pass. -/
theorem headNonWS_collapseHoriz (l : List Char) (h : headNonWS l = true) :
    headNonWS (collapseHoriz l) = true := by
  cases l with
  | nil => rfl
  | cons a rest =>
    have hws : pyWS a = false := by
      unfold headNonWS at h
      simpa using h
    have ha : isHoriz a = false := by
      cases hh : isHoriz a with
      | false => rfl
      | true => rw [isHoriz_pyWS a hh] at hws; exact absurd hws (by simp)
    unfold collapseHoriz
    rw [collapseHorizAux_eq_other false rest ha]
    unfold headNonWS
    simpa using hws

/-- Non-whitespace head survives the newline squeeze. -/
theorem headNonWS_squeezeNL (l : List Char) (h : headNonWS l = true) :
    headNonWS (squeezeNL l) = true := by
  unfold squeezeNL
  rw [headNonWS_congr (squeezeNLAux_zero_head l)]
  exact h

/-- The `DownloadText` normalizer meets all four normalization clauses. -/
theorem normalize_dl_specNormalized (s : List Char) :
    specNormalized (DownloadText.normalize_text s) := by
  unfold specNormalized DownloadText.normalize_text
  refine ⟨?_, ?_, ?_, ?_⟩
  · cases hc : (stripPy (squeezeNL (collapseHoriz
        (s.map (fun c => if c = '\r' then '\n' else c))))).contains '\r' with
    | false => rfl
    | true =>
      exfalso
      have hmem : '\r' ∈ stripPy (squeezeNL (collapseHoriz
          (s.map (fun c => if c = '\r' then '\n' else c)))) := by
        have := hc
        simp only [List.contains, List.elem_eq_mem, decide_eq_true_eq] at this
        exact this
      have h1 := stripPy_mem _ _ hmem
      have h2 := squeezeNLAux_mem _ _ _ h1
      rcases collapseHorizAux_mem _ _ _ h2 with ⟨h3, _⟩ | h3
      · rcases List.mem_map.mp h3 with ⟨c, _, hcc⟩
        by_cases hcr : c = '\r'
        · rw [if_pos hcr] at hcc; exact absurd hcc (by decide)
        · rw [if_neg hcr] at hcc; exact hcr (hcc ▸ rfl)
      · exact absurd h3 (by decide)
  · exact hdh_stripPy _ (squeezeNLAux_hdh _ 0 (collapseHorizAux_free _).1)
  · exact htnl_stripPy _ (squeezeNLAux_htnl _ 0).1
  · exact noLeadTrailWS_stripPy _

/-- The `AddPrayers` normalizer meets the three clauses that do not involve
carriage returns. -/
theorem normalize_p_specNormalized (s : List Char) :
    specNormalizedNoCRClause (AddPrayers.normalize_text s) := by
  unfold specNormalizedNoCRClause AddPrayers.normalize_text
  have hstrip := noLeadTrailWS_stripPy s
  unfold noLeadTrailWS at hstrip
  have hc := Bool.and_eq_true_iff.mp hstrip
  refine ⟨?_, ?_, ?_⟩
  · exact squeezeNLAux_hdh _ 0 (collapseHorizAux_free _).1
  · exact (squeezeNLAux_htnl _ 0).1
  · unfold noLeadTrailWS
    rw [headNonWS_squeezeNL _ (headNonWS_collapseHoriz _ hc.1)]
    have hlast : headNonWS
        (squeezeNL (collapseHoriz (stripPy s))).reverse = true :=
      squeezeNLAux_last (collapseHoriz (stripPy s)) 0
        (collapseHorizAux_last (stripPy s) false hc.2)
    rw [hlast]
    rfl

/-- C7 (amended): text stored by the extraction producer is fully normalized
(no carriage returns, collapsed horizontal whitespace, at most one blank
line, no leading/trailing whitespace); text stored by the template-injection
and enrichment producers satisfies the same clauses except carriage-return
removal — their normalizer never removes interior carriage returns. -/
theorem C7_stored_text_normalized :
    (∀ hash (src sid ty title : String) raw,
        specNormalized (DownloadText.section_obj hash src sid ty title raw).text) ∧
    (∀ hash tpl, specNormalizedNoCRClause
        (AddPrayers.template_to_manifest_section hash tpl).text) ∧
    (∀ hash g, specNormalizedNoCRClause
        (EnrichGemini.section_to_manifest_shape hash g).text) ∧
    (∀ s, specNormalized (DownloadText.normalize_text s)) ∧
    (∀ s, specNormalizedNoCRClause (AddPrayers.normalize_text s) ∧
        specNormalizedNoCRClause (EnrichGemini.normalize_text s) ∧
        specNormalizedNoCRClause (GenerateTTS.normalize_text s)) :=
  ⟨fun _ _ _ _ _ raw => normalize_dl_specNormalized raw,
   fun _ tpl => normalize_p_specNormalized tpl.text,
   fun _ g => normalize_p_specNormalized g.text,
   fun s => normalize_dl_specNormalized s,
   fun s => ⟨normalize_p_specNormalized s, normalize_p_specNormalized s,
     normalize_p_specNormalized s⟩⟩

/-- Counterexample to C7 as stated: a template text with an interior
carriage return is stored with the carriage return intact by the
template-injection producer. -/
theorem C7_stored_text_normalized_counterexample :
    (AddPrayers.template_to_manifest_section idHash crTemplateW).text.contains
      '\r' = true ∧
    (AddPrayers.normalize_text (strL "a\rb")).contains '\r' = true := by
  refine ⟨by decide, by decide⟩

/-! ### Dictionary-merge lemmas (for C1 and C6) -/

/-- `find?` over an append tries the left part first. -/
theorem find?_append' {α : Type} (p : α → Bool) (A B : List α) :
    (A ++ B).find? p =
      match A.find? p with
      | some x => some x
      | none => B.find? p := by
  induction A with
  | nil => simp
  | cons a A' ih =>
    rw [List.cons_append]
    simp only [List.find?_cons]
    cases hpa : p a with
    | true => rfl
    | false => exact ih

/-- After upserting `s`, looking up `s.id` finds exactly `s`. -/
theorem find?_dictUpsert_self (l : List Section) (s : Section) :
    (dictUpsert l s).find? (fun x => x.id == s.id) = some s := by
  induction l with
  | nil => simp [dictUpsert, List.find?]
  | cons x rest ih =>
    unfold dictUpsert
    cases h : (x.id == s.id) with
    | true =>
      simp only [if_true]
      simp only [List.find?_cons, beq_self_eq_true]
    | false =>
      simp only [Bool.false_eq_true, if_false]
      simp only [List.find?_cons, h, ih]

/-- Upserting `s` does not change lookups under other keys. -/
theorem find?_dictUpsert_other (l : List Section) (s : Section) (k : String)
    (hk : (s.id == k) = false) :
    (dictUpsert l s).find? (fun x => x.id == k) =
      l.find? (fun x => x.id == k) := by
  induction l with
  | nil => simp [dictUpsert, List.find?, hk]
  | cons x rest ih =>
    unfold dictUpsert
    cases h : (x.id == s.id) with
    | true =>
      have hx : x.id = s.id := by simpa using h
      have hxk : (x.id == k) = false := by rw [hx]; exact hk
      have hsk : (s.id == k) = false := hk
      simp only [if_true]
      simp only [List.find?_cons, hxk, hsk]
    | false =>
      simp only [Bool.false_eq_true, if_false]
      simp only [List.find?_cons]
      cases hxk : (x.id == k) with
      | true => rfl
      | false => exact ih

/-- Lookup after a left fold of upserts: the last upserted section with the
key wins, otherwise the original dictionary answers. -/
theorem find?_foldl_dictUpsert (ss : List Section) (k : String) :
    ∀ init, (ss.foldl dictUpsert init).find? (fun x => x.id == k) =
      match ss.reverse.find? (fun x => x.id == k) with
      | some s => some s
      | none => init.find? (fun x => x.id == k) := by
  induction ss with
  | nil => intro init; simp
  | cons a rest ih =>
    intro init
    rw [List.foldl_cons, ih (dictUpsert init a), List.reverse_cons,
      find?_append']
    cases hr : rest.reverse.find? (fun x => x.id == k) with
    | some s => rfl
    | none =>
      cases hak : (a.id == k) with
      | true =>
        have hk' : a.id = k := by simpa using hak
        subst hk'
        rw [find?_dictUpsert_self init a]
        simp [List.find?_cons]
      | false =>
        rw [find?_dictUpsert_other init a k hak]
        simp [List.find?_cons, hak]

/-- Upserting an already-present, identical entry changes nothing. -/
theorem dictUpsert_noop (l : List Section) (s : Section)
    (h : l.find? (fun x => x.id == s.id) = some s) : dictUpsert l s = l := by
  induction l with
  | nil => simp [List.find?] at h
  | cons x rest ih =>
    unfold dictUpsert
    cases hx : (x.id == s.id) with
    | true =>
      simp only [List.find?_cons, hx] at h
      simp only [if_true]
      rw [Option.some.inj h]
    | false =>
      simp only [List.find?_cons, hx] at h
      simp only [Bool.false_eq_true, if_false]
      rw [ih h]

/-- Folding upserts of entries that are all already present changes nothing. -/
theorem foldl_dictUpsert_noop (ss : List Section) (l : List Section)
    (h : ∀ s ∈ ss, l.find? (fun x => x.id == s.id) = some s) :
    ss.foldl dictUpsert l = l := by
  induction ss with
  | nil => rfl
  | cons a rest ih =>
    rw [List.foldl_cons, dictUpsert_noop l a (h a (List.mem_cons_self _ _))]
    exact ih (fun s hs => h s (List.mem_cons_of_mem _ hs))

/-- The canonical order has no duplicate ids. -/
theorem ORDER_nodup : ORDER.Nodup := by decide

/-- The canonical order lists ids in strictly increasing canonical rank. -/
theorem ORDER_pairwise_rank :
    ORDER.Pairwise (fun a b => canonicalRank a < canonicalRank b) := by decide

/-- A picked section carries the id it was picked for. -/
theorem pickSection_id {ex : List Section} {k : String} {s : Section}
    (h : pickSection ex k = some s) : s.id = k := by
  unfold pickSection at h
  cases hf : ex.find? (fun x => x.id == k) with
  | none => rw [hf] at h; exact Option.noConfusion h
  | some x =>
    rw [hf] at h
    dsimp only at h
    have hx : x.id = k := by simpa using List.find?_some hf
    by_cases hc : (k == "second_reading" && isBlankL x.text) = true
    · rw [if_pos hc] at h; exact Option.noConfusion h
    · rw [if_neg hc] at h
      rw [← Option.some.inj h]
      exact hx

/-- A picked `second_reading` section has non-blank text. -/
theorem pickSection_blank {ex : List Section} {s : Section}
    (h : pickSection ex "second_reading" = some s) :
    isBlankL s.text = false := by
  unfold pickSection at h
  cases hf : ex.find? (fun x => x.id == "second_reading") with
  | none => rw [hf] at h; exact Option.noConfusion h
  | some x =>
    rw [hf] at h
    dsimp only at h
    cases hb : isBlankL x.text with
    | true =>
      rw [if_pos (by simp [hb])] at h
      exact Option.noConfusion h
    | false =>
      rw [if_neg (by simp [hb])] at h
      rw [← Option.some.inj h]
      exact hb

/-- Looking up a key of the key list in a keyed `filterMap` returns exactly
what the picking function returns for that key. -/
theorem find?_filterMap_key (keys : List String) (f : String → Option Section)
    (hf : ∀ k s, f k = some s → s.id = k) :
    ∀ k, keys.Nodup → k ∈ keys →
      (keys.filterMap f).find? (fun x => x.id == k) = f k := by
  induction keys with
  | nil => intro k _ hk; simp at hk
  | cons k' ks ih =>
    intro k hnd hk
    have hnd' := List.nodup_cons.mp hnd
    rw [List.filterMap_cons]
    rcases List.mem_cons.mp hk with hkk | hkk
    · subst hkk
      cases hfk : f k with
      | none =>
        simp only
        apply List.find?_eq_none.mpr
        intro x hx
        obtain ⟨k'', hk'', hfk''⟩ := List.mem_filterMap.mp hx
        have hxid := hf _ _ hfk''
        simp only [hxid, beq_iff_eq]
        exact fun heq => hnd'.1 (heq ▸ hk'')
      | some s =>
        have hsid : s.id = k := hf _ _ hfk
        simp only [List.find?_cons, hsid, beq_self_eq_true]
    · have hne : k ≠ k' := fun h => hnd'.1 (h ▸ hkk)
      cases hfk : f k' with
      | none =>
        simp only
        exact ih k hnd'.2 hkk
      | some s =>
        have hsid : s.id = k' := hf _ _ hfk
        have hne' : (s.id == k) = false := by
          rw [hsid]
          exact beq_eq_false_iff_ne.mpr (fun h => hne h.symm)
        simp only [List.find?_cons, hne']
        exact ih k hnd'.2 hkk

/-- A keyed `filterMap` over rank-increasing keys is rank-increasing. -/
theorem filterMap_pairwise_rank (keys : List String)
    (f : String → Option Section) (hf : ∀ k s, f k = some s → s.id = k)
    (hp : keys.Pairwise (fun a b => canonicalRank a < canonicalRank b)) :
    (keys.filterMap f).Pairwise
      (fun a b => canonicalRank a.id < canonicalRank b.id) := by
  induction keys with
  | nil => simp
  | cons k ks ih =>
    rw [List.filterMap_cons]
    cases hfk : f k with
    | none => exact ih hp.of_cons
    | some s =>
      refine List.pairwise_cons.mpr ⟨?_, ih hp.of_cons⟩
      intro b hb
      obtain ⟨k', hk', hfk'⟩ := List.mem_filterMap.mp hb
      rw [hf k s hfk, hf k' b hfk']
      exact (List.pairwise_cons.mp hp).1 k' hk'

/-- Rebuilt sections carry canonical ids. -/
theorem mem_rebuild_ORDER {ex : List Section} {s : Section}
    (h : s ∈ rebuildSections ex) : s.id ∈ ORDER := by
  obtain ⟨k, hk, hfk⟩ := List.mem_filterMap.mp h
  rw [pickSection_id hfk]
  exact hk

/-- Extras carry non-canonical ids. -/
theorem mem_extras_not_ORDER {ex : List Section} {s : Section}
    (h : s ∈ sectionExtras ex) : s.id ∉ ORDER := by
  unfold sectionExtras at h
  have hkeep := List.of_mem_filter h
  simp only [Bool.not_eq_true', List.contains, List.elem_eq_mem,
    decide_eq_false_iff_not] at hkeep
  exact hkeep

/-- The rebuilt canonical block is rank-ordered. -/
theorem rebuild_pairwise (ex : List Section) :
    (rebuildSections ex).Pairwise
      (fun a b => canonicalRank a.id < canonicalRank b.id) :=
  filterMap_pairwise_rank ORDER _ (fun _ _ h => pickSection_id h)
    ORDER_pairwise_rank

/-- A rebuilt block never stores a blank `second_reading`. -/
theorem rebuild_noBlank (ex : List Section) :
    noBlankSecondReading (rebuildSections ex) := by
  intro s hs hsid
  obtain ⟨k, _, hfk⟩ := List.mem_filterMap.mp hs
  have hk : k = "second_reading" := by rw [← pickSection_id hfk, hsid]
  subst hk
  exact pickSection_blank hfk

/-- Membership in the canonical set, as the Boolean filter sees it. -/
theorem contains_of_mem_ORDER {sid : String} (h : sid ∈ ORDER) :
    ORDER.contains sid = true := by
  simp only [List.contains, List.elem_eq_mem, decide_eq_true_eq]
  exact h

/-- The canonical-plus-extras shape satisfies all three ordering clauses of
the claim. -/
theorem rebuild_extras_props (ex : List Section) :
    inCanonicalOrder (rebuildSections ex ++ sectionExtras ex) ∧
    extrasAfterCanonical (rebuildSections ex ++ sectionExtras ex) ∧
    noBlankSecondReading (rebuildSections ex ++ sectionExtras ex) := by
  refine ⟨?_, ?_, ?_⟩
  · unfold inCanonicalOrder
    rw [List.filter_append]
    rw [List.filter_eq_self.mpr
      (fun s hs => contains_of_mem_ORDER (mem_rebuild_ORDER hs))]
    rw [List.filter_eq_nil_iff.mpr (fun s hs hc => mem_extras_not_ORDER hs
      (by simpa [List.contains, List.elem_eq_mem] using hc))]
    rw [List.append_nil]
    exact rebuild_pairwise ex
  · exact ⟨rebuildSections ex, sectionExtras ex, rfl,
      fun s hs => mem_rebuild_ORDER hs, fun s hs => mem_extras_not_ORDER hs⟩
  · intro s hs hsid
    rcases List.mem_append.mp hs with hs | hs
    · exact rebuild_noBlank ex s hs hsid
    · exact absurd (hsid ▸ mem_extras_not_ORDER hs) (by simp [ORDER])

/-- The rebuilt-only shape satisfies the enrichment clauses. -/
theorem rebuild_only_props (ex : List Section) :
    inCanonicalOrder (rebuildSections ex) ∧
    noBlankSecondReading (rebuildSections ex) ∧
    ∀ s ∈ rebuildSections ex, s.id ∈ ORDER := by
  refine ⟨?_, rebuild_noBlank ex, fun s hs => mem_rebuild_ORDER hs⟩
  unfold inCanonicalOrder
  rw [List.filter_eq_self.mpr
    (fun s hs => contains_of_mem_ORDER (mem_rebuild_ORDER hs))]
  exact rebuild_pairwise ex

/-- C1 (amended): both merge operations rebuild the persisted `sections`
list in the fixed canonical order regardless of insertion order and drop a
blank `second_reading`; prayer injection appends sections with non-canonical
ids after the canonical block, while enrichment omits them — its rebuilt
list contains only canonical ids. -/
theorem C1_canonical_ordering :
    (∀ hash (m : Manifest) (path : String) tpls m',
        AddPrayers.upsert_prayers_into_manifest hash m path tpls = .ok m' →
        inCanonicalOrder m'.sections ∧ extrasAfterCanonical m'.sections ∧
        noBlankSecondReading m'.sections) ∧
    (∀ hash (gm : String) (m : Manifest) gs,
        inCanonicalOrder (EnrichGemini.enrich_manifest hash gm m gs).sections ∧
        noBlankSecondReading
          (EnrichGemini.enrich_manifest hash gm m gs).sections ∧
        ∀ s ∈ (EnrichGemini.enrich_manifest hash gm m gs).sections,
          s.id ∈ ORDER) := by
  constructor
  · intro hash m path tpls m' h
    unfold AddPrayers.upsert_prayers_into_manifest at h
    cases hmiss : AddPrayers.requiredPrayerIds.find?
        (fun rid => (AddPrayers.lookupTemplate tpls rid).isNone) with
    | some rid => rw [hmiss] at h; simp at h
    | none =>
      rw [hmiss] at h
      dsimp only at h
      rw [← Except.ok.inj h]
      exact rebuild_extras_props _
  · intro hash gm m gs
    exact rebuild_only_props _

/-- Counterexample to C1 as stated: enrichment drops the non-canonical
`announcements` section instead of appending it after the canonical ones. -/
theorem C1_canonical_ordering_counterexample :
    "announcements" ∈ manifestW.sections.map (·.id) ∧
    (EnrichGemini.enrich_manifest idHash "gemini-2.5-flash" manifestW
      [welcomeGenW]).sections.map (·.id) = ["welcome", "gospel"] := by
  refine ⟨by decide, by decide⟩

/-- Witness for C1 at a concrete manifest and concrete templates. -/
theorem C1_canonical_ordering_witness :
    inCanonicalOrder ((AddPrayers.upsert_prayers_into_manifest idHash
        manifestW "prayers_es.json" templatesW).toOption.getD
        manifestW).sections ∧
    extrasAfterCanonical ((AddPrayers.upsert_prayers_into_manifest idHash
        manifestW "prayers_es.json" templatesW).toOption.getD
        manifestW).sections ∧
    noBlankSecondReading ((AddPrayers.upsert_prayers_into_manifest idHash
        manifestW "prayers_es.json" templatesW).toOption.getD
        manifestW).sections :=
  C1_canonical_ordering.1 idHash manifestW "prayers_es.json" templatesW _
    (by rfl)

/-! ### Idempotence lemmas (for C6) -/

/-- Ids appearing after an upsert. -/
theorem mem_ids_dictUpsert (l : List Section) (s : Section) (k : String)
    (h : k ∈ (dictUpsert l s).map (·.id)) :
    k ∈ l.map (·.id) ∨ k = s.id := by
  induction l with
  | nil => simpa [dictUpsert] using h
  | cons x rest ih =>
    unfold dictUpsert at h
    cases hx : (x.id == s.id) with
    | true =>
      rw [hx] at h
      simp only [if_true, List.map_cons, List.mem_cons] at h
      rcases h with h | h
      · exact Or.inr h
      · exact Or.inl (by simp [List.mem_cons]; right; simpa using h)
    | false =>
      rw [hx] at h
      simp only [Bool.false_eq_true, if_false, List.map_cons,
        List.mem_cons] at h
      rcases h with h | h
      · exact Or.inl (by simp [h])
      · rcases ih h with h' | h'
        · exact Or.inl (by simp [List.mem_cons]; right; simpa using h')
        · exact Or.inr h'

/-- Upserting preserves distinctness of ids. -/
theorem idsNodup_dictUpsert (l : List Section) (s : Section)
    (h : idsNodup l) : idsNodup (dictUpsert l s) := by
  induction l with
  | nil => simp [dictUpsert, idsNodup]
  | cons x rest ih =>
    unfold idsNodup at h ⊢
    rw [List.map_cons, List.nodup_cons] at h
    unfold dictUpsert
    cases hx : (x.id == s.id) with
    | true =>
      have hxs : x.id = s.id := by simpa using hx
      simp only [if_true, List.map_cons, List.nodup_cons]
      exact ⟨hxs ▸ h.1, h.2⟩
    | false =>
      simp only [Bool.false_eq_true, if_false, List.map_cons, List.nodup_cons]
      refine ⟨?_, ih h.2⟩
      intro hmem
      rcases mem_ids_dictUpsert rest s x.id hmem with h' | h'
      · exact h.1 h'
      · rw [h'] at hx
        simp at hx

/-- Folded upserts preserve distinctness of ids. -/
theorem idsNodup_foldl (ss : List Section) :
    ∀ init, idsNodup init → idsNodup (ss.foldl dictUpsert init) := by
  induction ss with
  | nil => intro init h; exact h
  | cons a rest ih =>
    intro init h
    rw [List.foldl_cons]
    exact ih _ (idsNodup_dictUpsert init a h)

/-- A Python dict has distinct keys. -/
theorem idsNodup_dictOfSections (l : List Section) :
    idsNodup (dictOfSections l) :=
  idsNodup_foldl l [] (by simp [idsNodup])

/-- Upserting a fresh id appends at the end. -/
theorem dictUpsert_append (l : List Section) (s : Section)
    (h : ∀ a ∈ l, a.id ≠ s.id) : dictUpsert l s = l ++ [s] := by
  induction l with
  | nil => rfl
  | cons x rest ih =>
    unfold dictUpsert
    have hx : (x.id == s.id) = false := by
      simpa using h x (List.mem_cons_self _ _)
    rw [hx]
    simp only [Bool.false_eq_true, if_false, List.cons_append]
    rw [ih (fun a ha => h a (List.mem_cons_of_mem _ ha))]

/-- Building a dict from a list with distinct ids returns the list itself. -/
theorem foldl_dictUpsert_of_nodup (l : List Section) :
    ∀ acc, (∀ s ∈ l, ∀ a ∈ acc, a.id ≠ s.id) → idsNodup l →
      l.foldl dictUpsert acc = acc ++ l := by
  induction l with
  | nil => intro acc _ _; simp
  | cons s rest ih =>
    intro acc hdisj hnd
    rw [List.foldl_cons,
      dictUpsert_append acc s (fun a ha => hdisj s (List.mem_cons_self _ _) a ha)]
    rw [ih (acc ++ [s]) ?disj ?nodup]
    · simp
    case disj =>
      intro s' hs' a ha
      rcases List.mem_append.mp ha with ha | ha
      · exact hdisj s' (List.mem_cons_of_mem _ hs') a ha
      · have : a = s := by simpa using ha
        subst this
        unfold idsNodup at hnd
        rw [List.map_cons, List.nodup_cons] at hnd
        intro heq
        exact hnd.1 (heq ▸ List.mem_map_of_mem _ hs')
    case nodup =>
      unfold idsNodup at hnd ⊢
      rw [List.map_cons, List.nodup_cons] at hnd
      exact hnd.2

/-- `dictOfSections` is the identity on lists with distinct ids. -/
theorem dictOfSections_of_nodup (l : List Section) (h : idsNodup l) :
    dictOfSections l = l := by
  unfold dictOfSections
  rw [foldl_dictUpsert_of_nodup l [] (by simp) h]
  simp

/-- The rebuilt canonical block has distinct ids. -/
theorem idsNodup_rebuild (ex : List Section) :
    idsNodup (rebuildSections ex) := by
  have hp := rebuild_pairwise ex
  show ((rebuildSections ex).map (·.id)).Pairwise (· ≠ ·)
  exact List.pairwise_map.mpr
    (hp.imp (fun h heq => absurd (heq ▸ h) (lt_irrefl _)))

/-- If a lookup in `l` agrees with `pickSection ex k`, so does picking from
`l`: the `second_reading` blank test is idempotent. -/
theorem pick_of_find?_eq_pick {l ex : List Section} {k : String}
    (h : l.find? (fun x => x.id == k) = pickSection ex k) :
    pickSection l k = pickSection ex k := by
  show (match l.find? (fun x => x.id == k) with
    | none => none
    | some s =>
      if (k == "second_reading" && isBlankL s.text) = true then none
      else some s) = pickSection ex k
  rw [h]
  cases hp : pickSection ex k with
  | none => rfl
  | some s =>
    dsimp only
    by_cases hk2 : k = "second_reading"
    · subst hk2
      rw [if_neg (by simp [pickSection_blank hp])]
    · rw [if_neg (by simp [hk2])]

/-- Extras of an id-distinct dictionary have distinct ids. -/
theorem idsNodup_extras (ex : List Section) (h : idsNodup ex) :
    idsNodup (sectionExtras ex) :=
  List.Nodup.sublist (List.Sublist.map _ (List.filter_sublist _)) h

/-- The canonical-plus-extras shape has distinct ids. -/
theorem idsNodup_rebuild_extras (ex : List Section) (h : idsNodup ex) :
    idsNodup (rebuildSections ex ++ sectionExtras ex) := by
  unfold idsNodup
  rw [List.map_append, List.nodup_append]
  refine ⟨idsNodup_rebuild ex, idsNodup_extras ex h, ?_⟩
  intro a ha hb
  obtain ⟨s, hs, hseq⟩ := List.mem_map.mp ha
  obtain ⟨t, ht, hteq⟩ := List.mem_map.mp hb
  exact mem_extras_not_ORDER ht
    (hteq ▸ (hseq ▸ mem_rebuild_ORDER hs : a ∈ ORDER))

/-- Nothing in the extras block answers a canonical lookup. -/
theorem find?_extras_none (ex : List Section) (k : String) (hk : k ∈ ORDER) :
    (sectionExtras ex).find? (fun x => x.id == k) = none := by
  apply List.find?_eq_none.mpr
  intro x hx
  have hni := mem_extras_not_ORDER hx
  simp only [beq_iff_eq]
  exact fun heq => hni (heq ▸ hk)

/-- Canonical lookup in the rebuilt block is the pick itself. -/
theorem find?_rebuild (ex : List Section) (k : String) (hk : k ∈ ORDER) :
    (rebuildSections ex).find? (fun x => x.id == k) = pickSection ex k :=
  find?_filterMap_key ORDER _ (fun _ _ h => pickSection_id h) k ORDER_nodup hk

/-- Picking from a rebuilt dictionary is picking from the dictionary. -/
theorem pickSection_rebuild_extras (ex : List Section) (k : String)
    (hk : k ∈ ORDER) :
    pickSection (rebuildSections ex ++ sectionExtras ex) k =
      pickSection ex k := by
  apply pick_of_find?_eq_pick
  rw [find?_append', find?_rebuild ex k hk, find?_extras_none ex k hk]
  cases pickSection ex k <;> rfl

/-- Rebuilding a rebuilt-plus-extras list reproduces the canonical block. -/
theorem rebuild_rebuild_extras (ex : List Section) :
    rebuildSections (rebuildSections ex ++ sectionExtras ex) =
      rebuildSections ex :=
  List.filterMap_congr (fun k hk => pickSection_rebuild_extras ex k hk)

/-- The extras of a rebuilt-plus-extras list are the original extras. -/
theorem extras_rebuild_extras (ex : List Section) :
    sectionExtras (rebuildSections ex ++ sectionExtras ex) =
      sectionExtras ex := by
  show (rebuildSections ex ++ sectionExtras ex).filter
      (fun s => !(ORDER.contains s.id)) = sectionExtras ex
  rw [List.filter_append]
  rw [List.filter_eq_nil_iff.mpr (fun s hs => by
    simp only [Bool.not_eq_true', List.contains, List.elem_eq_mem,
      decide_eq_false_iff_not, not_not]
    exact mem_rebuild_ORDER hs)]
  rw [List.nil_append]
  apply List.filter_eq_self.mpr
  intro s hs
  have hni := mem_extras_not_ORDER hs
  simp only [Bool.not_eq_true', List.contains, List.elem_eq_mem,
    decide_eq_false_iff_not]
  exact hni

/-- Re-running a fold of upserts against its own rebuilt output leaves the
canonical block unchanged. -/
theorem rebuild_foldl_stable (S D : List Section) :
    rebuildSections (S.foldl dictUpsert
      (dictOfSections (rebuildSections (S.foldl dictUpsert D)))) =
    rebuildSections (S.foldl dictUpsert D) := by
  rw [dictOfSections_of_nodup _ (idsNodup_rebuild (S.foldl dictUpsert D))]
  show ORDER.filterMap (pickSection (S.foldl dictUpsert
      (rebuildSections (S.foldl dictUpsert D)))) =
    ORDER.filterMap (pickSection (S.foldl dictUpsert D))
  apply List.filterMap_congr
  intro k hk
  cases hS : S.reverse.find? (fun x => x.id == k) with
  | some s =>
    have h1 : (S.foldl dictUpsert
        (rebuildSections (S.foldl dictUpsert D))).find?
          (fun x => x.id == k) = some s := by
      rw [find?_foldl_dictUpsert, hS]
    have h2 : (S.foldl dictUpsert D).find? (fun x => x.id == k) = some s := by
      rw [find?_foldl_dictUpsert, hS]
    unfold pickSection
    rw [h1, h2]
  | none =>
    apply pick_of_find?_eq_pick
    rw [find?_foldl_dictUpsert, hS]
    exact find?_rebuild (S.foldl dictUpsert D) k hk

/-- Re-running a fold of upserts whose entries the rebuilt document already
contains verbatim reproduces the same sections list. -/
theorem upsert_sections_stable (P D : List Section) (hD : idsNodup D)
    (hfind : ∀ p ∈ P,
      ((rebuildSections (P.foldl dictUpsert D) ++
        sectionExtras (P.foldl dictUpsert D)).find?
          (fun x => x.id == p.id)) = some p) :
    rebuildSections (P.foldl dictUpsert (dictOfSections
        (rebuildSections (P.foldl dictUpsert D) ++
          sectionExtras (P.foldl dictUpsert D)))) ++
      sectionExtras (P.foldl dictUpsert (dictOfSections
        (rebuildSections (P.foldl dictUpsert D) ++
          sectionExtras (P.foldl dictUpsert D)))) =
    rebuildSections (P.foldl dictUpsert D) ++
      sectionExtras (P.foldl dictUpsert D) := by
  have hnd1 : idsNodup (P.foldl dictUpsert D) := idsNodup_foldl P D hD
  have hndAB := idsNodup_rebuild_extras _ hnd1
  rw [dictOfSections_of_nodup _ hndAB]
  rw [foldl_dictUpsert_noop P _ hfind]
  rw [rebuild_rebuild_extras, extras_rebuild_extras]

/-- The rebuilt prayer-injection output contains each injected prayer
section verbatim under its id. -/
theorem prayer_find (hash : List Char → List Char)
    (tpls : List AddPrayers.Template) (D : List Section) :
    ∀ p ∈ AddPrayers.requiredPrayerIds.filterMap (fun rid =>
        (AddPrayers.lookupTemplate tpls rid).map
          (AddPrayers.template_to_manifest_section hash)),
      ((rebuildSections ((AddPrayers.requiredPrayerIds.filterMap (fun rid =>
          (AddPrayers.lookupTemplate tpls rid).map
            (AddPrayers.template_to_manifest_section hash))).foldl
            dictUpsert D) ++
        sectionExtras ((AddPrayers.requiredPrayerIds.filterMap (fun rid =>
          (AddPrayers.lookupTemplate tpls rid).map
            (AddPrayers.template_to_manifest_section hash))).foldl
            dictUpsert D)).find? (fun x => x.id == p.id)) = some p := by
  intro p hp
  have hfprop : ∀ k s, ((AddPrayers.lookupTemplate tpls k).map
      (AddPrayers.template_to_manifest_section hash)) = some s → s.id = k := by
    intro k s h
    cases hl : AddPrayers.lookupTemplate tpls k with
    | none => rw [hl] at h; simp at h
    | some tpl =>
      rw [hl] at h
      simp only [Option.map_some'] at h
      have hts := Option.some.inj h
      have hl' : tpls.reverse.find? (fun t => t.id == k) = some tpl := hl
      have htid : tpl.id = k := by simpa using List.find?_some hl'
      rw [← hts]
      exact htid
  obtain ⟨rid, hrid, hfp⟩ := List.mem_filterMap.mp hp
  have hpid : p.id = rid := hfprop rid p hfp
  have hrev : ((AddPrayers.requiredPrayerIds.filterMap (fun rid =>
      (AddPrayers.lookupTemplate tpls rid).map
        (AddPrayers.template_to_manifest_section hash))).reverse).find?
        (fun x => x.id == rid) = some p := by
    rw [← List.filterMap_reverse]
    rw [find?_filterMap_key _ _ hfprop rid
      (List.nodup_reverse.mpr (by decide)) (List.mem_reverse.mpr hrid)]
    exact hfp
  have hex1 : (((AddPrayers.requiredPrayerIds.filterMap (fun rid =>
      (AddPrayers.lookupTemplate tpls rid).map
        (AddPrayers.template_to_manifest_section hash))).foldl
        dictUpsert D).find? (fun x => x.id == rid)) = some p := by
    rw [find?_foldl_dictUpsert, hrev]
  have hnsr : (rid == "second_reading") = false := by
    have hall : ∀ r ∈ AddPrayers.requiredPrayerIds,
        (r == "second_reading") = false := by decide
    exact hall rid hrid
  have hord : rid ∈ ORDER := by
    have hall : ∀ r ∈ AddPrayers.requiredPrayerIds, r ∈ ORDER := by decide
    exact hall rid hrid
  have hpick : pickSection ((AddPrayers.requiredPrayerIds.filterMap (fun rid =>
      (AddPrayers.lookupTemplate tpls rid).map
        (AddPrayers.template_to_manifest_section hash))).foldl
        dictUpsert D) rid = some p := by
    unfold pickSection
    rw [hex1]
    dsimp only
    rw [if_neg (by simp [hnsr])]
  rw [hpid, find?_append', find?_rebuild _ rid hord, hpick]

/-- C6: both merge operations are idempotent — running the prayer upsert a
second time over its own output returns the same document, and enriching an
already-enriched manifest with the same generated sections returns it
unchanged (there is no timestamp metadata in either operation). -/
theorem C6_merge_idempotent :
    (∀ hash (m : Manifest) (path : String) tpls m',
        AddPrayers.upsert_prayers_into_manifest hash m path tpls = .ok m' →
        AddPrayers.upsert_prayers_into_manifest hash m' path tpls = .ok m') ∧
    (∀ hash (gm : String) (m : Manifest) gs,
        EnrichGemini.enrich_manifest hash gm
            (EnrichGemini.enrich_manifest hash gm m gs) gs =
          EnrichGemini.enrich_manifest hash gm m gs) := by
  constructor
  · intro hash m path tpls m' h
    unfold AddPrayers.upsert_prayers_into_manifest at h ⊢
    cases hmiss : AddPrayers.requiredPrayerIds.find?
        (fun rid => (AddPrayers.lookupTemplate tpls rid).isNone) with
    | some rid => rw [hmiss] at h; simp at h
    | none =>
      rw [hmiss] at h
      dsimp only at h ⊢
      rw [← Except.ok.inj h]
      dsimp only
      rw [upsert_sections_stable _ _ (idsNodup_dictOfSections m.sections)
        (prayer_find hash tpls (dictOfSections m.sections))]
  · intro hash gm m gs
    unfold EnrichGemini.enrich_manifest
    dsimp only
    cases hL : m.language with
    | none =>
      dsimp only
      rw [rebuild_foldl_stable]
    | some v =>
      dsimp only
      rw [rebuild_foldl_stable]

/-- Witness for C6 at concrete inputs. -/
theorem C6_merge_idempotent_witness :
    AddPrayers.upsert_prayers_into_manifest idHash
        ((AddPrayers.upsert_prayers_into_manifest idHash manifestW
          "prayers_es.json" templatesW).toOption.getD manifestW)
        "prayers_es.json" templatesW =
      .ok ((AddPrayers.upsert_prayers_into_manifest idHash manifestW
        "prayers_es.json" templatesW).toOption.getD manifestW) ∧
    EnrichGemini.enrich_manifest idHash "gemini-2.5-flash"
        (EnrichGemini.enrich_manifest idHash "gemini-2.5-flash" manifestW
          [welcomeGenW]) [welcomeGenW] =
      EnrichGemini.enrich_manifest idHash "gemini-2.5-flash" manifestW
        [welcomeGenW] :=
  ⟨C6_merge_idempotent.1 idHash manifestW "prayers_es.json" templatesW _
      (by rfl),
   C6_merge_idempotent.2 idHash "gemini-2.5-flash" manifestW [welcomeGenW]⟩
